import Mathlib

/-!
Verification development for the Sfc4q repository (file `src/GSfc4q.js`).

The JavaScript source works on `BigInt` values, i.e. on unbounded integers
with two's-complement semantics for the bitwise operators.  We embed the
relevant classes as follows:

* `Morton.*`   : the `GSfc4qLbl_Morton` static bit-twiddling functions;
* `Hilbert.*`  : the `GSfc4qLbl_Hilbert` static curve functions;
* `GSfc4q.*`   : the generalized-curve bookkeeping (`refresh`, `key_decode`,
  `key_encode`) over exact rationals for the level arithmetic;
* `SizedBigInt.*` : the sized-integer type with its base conversions.

JS `BigInt` bitwise `&`, `|`, `<<`, `>>` are modelled by Mathlib's
two's-complement `Int.land`, `Int.lor`, multiplication by `2^k`, and the
arithmetic `Int.shiftRight`.  Functions that can only ever see natural
numbers in the verified statements also get a `Nat`-level twin (suffix `N`)
that is proved to agree with the faithful `Int` version on naturals.
All recursive helper functions take explicit fuel so that every definition
is computable by the kernel; the fuel arguments are always sufficient.
-/

namespace Sfc4q

/-- JS `x << k` on BigInt: exact multiplication by `2^k` (also for negatives). -/
def jsShl (a : Int) (k : Nat) : Int := a * 2 ^ k

/-- JS `x >> k` on BigInt: arithmetic (floor) shift; `Int.shiftRight` from core
has exactly this two's-complement behaviour. -/
def jsShr (a : Int) (k : Nat) : Int := Int.shiftRight a k

namespace Morton

/-- Source `GSfc4qLbl_Morton._bkey_interleave` (GSfc4q.js lines 1036-1042):
spread a 32-bit value so bit `b` moves to bit `2b`, by the five
mask-and-shift steps of the source. -/
def bkey_interleave (x : Int) : Int :=
  let x1 := Int.land (Int.lor x (jsShl x 16)) 0x0000ffff0000ffff
  let x2 := Int.land (Int.lor x1 (jsShl x1 8)) 0x00ff00ff00ff00ff
  let x3 := Int.land (Int.lor x2 (jsShl x2 4)) 0x0f0f0f0f0f0f0f0f
  let x4 := Int.land (Int.lor x3 (jsShl x3 2)) 0x3333333333333333
  Int.land (Int.lor x4 (jsShl x4 1)) 0x5555555555555555

/-- Source `GSfc4qLbl_Morton.bkey_encode` (lines 1021-1026). -/
def bkey_encode (x y : Int) : Int :=
  Int.lor (bkey_interleave x) (jsShl (bkey_interleave y) 1)

/-- Source `GSfc4qLbl_Morton.deinterleave` (lines 1044-1052). -/
def deinterleave (x : Int) : Int :=
  let x0 := Int.land x 0x5555555555555555
  let x1 := Int.land (Int.lor x0 (jsShr x0 1)) 0x3333333333333333
  let x2 := Int.land (Int.lor x1 (jsShr x1 2)) 0x0f0f0f0f0f0f0f0f
  let x3 := Int.land (Int.lor x2 (jsShr x2 4)) 0x00ff00ff00ff00ff
  let x4 := Int.land (Int.lor x3 (jsShr x3 8)) 0x0000ffff0000ffff
  Int.land (Int.lor x4 (jsShr x4 16)) 0x00000000ffffffff

/-- Source `GSfc4qLbl_Morton.bkey_decode` (lines 1028-1034). -/
def bkey_decode (d : Int) : Int × Int :=
  (deinterleave d, deinterleave (jsShr d 1))

/-- Nat twin of `bkey_interleave` (all values are nonnegative there). -/
def interleaveN (x : Nat) : Nat :=
  let x1 := (x ||| x <<< 16) &&& 0x0000ffff0000ffff
  let x2 := (x1 ||| x1 <<< 8) &&& 0x00ff00ff00ff00ff
  let x3 := (x2 ||| x2 <<< 4) &&& 0x0f0f0f0f0f0f0f0f
  let x4 := (x3 ||| x3 <<< 2) &&& 0x3333333333333333
  (x4 ||| x4 <<< 1) &&& 0x5555555555555555

/-- Nat twin of `bkey_encode`. -/
def encodeN (x y : Nat) : Nat := interleaveN x ||| (interleaveN y <<< 1)

/-- Nat twin of `deinterleave`. -/
def deinterleaveN (x : Nat) : Nat :=
  let x0 := x &&& 0x5555555555555555
  let x1 := (x0 ||| x0 >>> 1) &&& 0x3333333333333333
  let x2 := (x1 ||| x1 >>> 2) &&& 0x0f0f0f0f0f0f0f0f
  let x3 := (x2 ||| x2 >>> 4) &&& 0x00ff00ff00ff00ff
  let x4 := (x3 ||| x3 >>> 8) &&& 0x0000ffff0000ffff
  (x4 ||| x4 >>> 16) &&& 0x00000000ffffffff

/-- Nat twin of `bkey_decode`. -/
def decodeN (d : Nat) : Nat × Nat := (deinterleaveN d, deinterleaveN (d >>> 1))

/-- Ideal value extracted by `deinterleaveN`: bit `i` of the result is bit
`2*i` of the 64-bit input window. -/
def evenBit (d : Nat) (i : Nat) : Bool := decide (i < 32) && d.testBit (2 * i)

end Morton

/-- JS `n.toString(2)` of a nonnegative BigInt, as a list of `0`/`1`
characters (so `natToBin 0 = "0"`, one character).  The first argument of
the auxiliary function is fuel; `n` itself is always enough. -/
def natToBinF : Nat → Nat → List Char
  | 0, _ => []
  | f + 1, n => if n < 2 then [Nat.digitChar n] else natToBinF f (n / 2) ++ [Nat.digitChar (n % 2)]

def natToBin (n : Nat) : List Char := natToBinF (n + 1) n

/-- JS `n.toString(2).length`, used by `refresh` for `keyBits`. -/
def binLen (n : Nat) : Nat := (natToBin n).length

/-- Errors a JS engine actually raises in the modelled code paths. -/
inductive JsError where
  | rangeError
  | syntaxError
  | err2
  | err4
deriving DecidableEq

namespace GSfc4q

/-- JS `Math.ceil` on an exact rational level. -/
def jsCeil (q : ℚ) : Int := -(Rat.floor (-q))

/-- State computed by `GSfc4q.refresh` (GSfc4q.js lines 776-790). -/
structure Grid where
  level : ℚ
  blevel : Int
  isHalf : Bool
  nKeys : Nat
  nBKeys : Nat
  keyBits : Nat
  bkeyBits : Nat
  nRefRows : Nat
deriving DecidableEq

/-- Body of `GSfc4q.refresh` after the level-defaulting line: computes all
grid constants from the effective level.  The only failing path in the
source is `4n ** BigInt(this.blevel)` with a negative `blevel`, which
throws a `RangeError`; there is no level validation of any kind. -/
def refreshCalc (lvl : ℚ) : Except JsError Grid :=
  let blevel : Int := jsCeil lvl
  let isHalf : Bool := decide ((blevel : ℚ) ≠ lvl)
  let level2 : ℚ := (blevel : ℚ) - (if isHalf then 1 / 2 else 0)
  if blevel < 0 then .error .rangeError
  else
    let nBKeys : Nat := 4 ^ blevel.toNat
    let bkeyBits : Nat := binLen (nBKeys - 1)
    let nKeys : Nat := if isHalf then nBKeys / 2 else nBKeys
    let keyBits : Nat := if isHalf then bkeyBits - 1 else bkeyBits
    let nRefRows : Nat := 2 ^ blevel.toNat
    .ok ⟨level2, blevel, isHalf, nKeys, nBKeys, keyBits, bkeyBits, nRefRows⟩

/-- JS `a || b` for the level argument: `0` (and absent/undefined, modelled
as `none`) falls through to the next alternative. -/
def jsFalsyOr (v : Option ℚ) (fb : ℚ) : ℚ :=
  match v with
  | some a => if a = 0 then fb else a
  | none => fb

/-- Line 777 of the source: `this.level = level || this.level || 1`. -/
def effLevel (arg : Option ℚ) (prev : Option ℚ) : ℚ :=
  jsFalsyOr arg (jsFalsyOr prev 1)

/-- Full `refresh` call on an instance whose previous level is `prev`. -/
def refresh (prev : Option ℚ) (arg : Option ℚ) : Except JsError Grid :=
  refreshCalc (effLevel arg prev)

/-- Source `GSfc4q.key_decode` (lines 797-805), generic in the strategy's
`bkey_decode`.  Note: the source performs no range check on `key`. -/
def key_decode {α : Type} (g : Grid) (dec : Nat → α) (key : Nat) : α × Option α :=
  if g.isHalf then (dec (2 * key), some (dec (2 * key + 1)))
  else (dec key, none)

/-- Source `GSfc4q.key_encode` (lines 814-823), generic in the strategy's
`bkey_encode`.  Note: the source performs no range check on `i`, `j`. -/
def key_encode (g : Grid) (enc : Int → Int → Int) (i j : Int) : Int × Option Int :=
  if g.isHalf then
    let bkey1 := enc i j
    let key := jsShr bkey1 1
    let bkey1n := jsShl key 1
    (bkey1n, some (bkey1n + 1))
  else (enc i j, none)

/-- Grid produced by `refresh` at level 1 (Morton scenario grid). -/
def grid1 : Grid := ⟨1, 1, false, 4, 4, 2, 2, 2⟩

/-- Grid produced by `refresh` at the half level 0.5. -/
def grid05 : Grid := ⟨1 / 2, 1, true, 2, 4, 1, 2, 2⟩

end GSfc4q

deriving instance DecidableEq for Except

namespace SizedBigInt

/-- State of a `SizedBigInt` instance: the pair `(val, bits)`; `val = none`
is the JS `null` state produced by `fromNull`. -/
structure Sbi where
  val : Option Nat
  bits : Nat
deriving DecidableEq

/-- Source `SizedBigInt.fromNull` (line 1142). -/
def fromNull : Sbi := ⟨none, 0⟩

/-- JS `String.prototype.padStart(len, c)` on a list of characters. -/
def padStart (len : Nat) (c : Char) (s : List Char) : List Char :=
  List.replicate (len - s.length) c ++ s

def bitVal (c : Char) : Nat := if c = '1' then 1 else 0

/-- Value of a binary digit string (`BigInt("0b"+s)` on valid input). -/
def parseVal (s : List Char) : Nat := s.foldl (fun a c => 2 * a + bitVal c) 0

def validBin (s : List Char) : Bool := s.all fun c => c == '0' || c == '1'

/-- JS `BigInt("0b"+s)`: the parsed value, or a SyntaxError (`none`). -/
def parseBin (s : List Char) : Option Nat :=
  if validBin s then some (parseVal s) else none

def hexVal (c : Char) : Option Nat :=
  List.lookup c
    [('0', 0), ('1', 1), ('2', 2), ('3', 3), ('4', 4), ('5', 5), ('6', 6), ('7', 7),
     ('8', 8), ('9', 9), ('a', 10), ('b', 11), ('c', 12), ('d', 13), ('e', 14), ('f', 15),
     ('A', 10), ('B', 11), ('C', 12), ('D', 13), ('E', 14), ('F', 15)]

/-- JS `BigInt("0x"+s)`: the parsed value, or a SyntaxError (`none`). -/
def parseHex (s : List Char) : Option Nat :=
  s.foldl (fun acc c => acc.bind fun a => (hexVal c).map fun v => 16 * a + v) (some 0)

/-- Source `SizedBigInt.setBits_byMax` (lines 1144-1160).  Returns the new
`this.bits` together with the `cutByMax` flag and the effective `maxBits`.
`Math.ceil(Math.abs(maxBits))` is `Int.natAbs` for the integer `maxBits`
used everywhere in the library.  With `onErr_cutLSD = false` an overlong
input raises `ERR4` (the spec's `BitWidthExceeded`); the `true` value is
the JS default for every constructor entry point. -/
def setBits_byMax (maxBits : Option Int) (inputLen : Nat) (onErr_cutLSD : Bool) :
    Except JsError (Nat × Bool × Nat) :=
  match maxBits with
  | none => .ok (inputLen, false, 0)
  | some mb =>
    if mb = 0 then .ok (inputLen, false, 0)
    else
      let m : Nat := mb.natAbs
      let forceBits : Nat := if mb < 0 then 0 else m
      if inputLen > m then
        if onErr_cutLSD then .ok (m, true, m) else .error .err4
      else if inputLen < forceBits then .ok (forceBits, false, m)
      else .ok (inputLen, false, m)

/-- Source `SizedBigInt.fromInt` (lines 1237-1251) on a BigInt input — the
only input kind (besides Number) that passes the guard
`if (t == 'bigint' || isNum)` at line 1241.  Under that guard `isSBI`
(`typeof val == 'object'`) is necessarily false, so the `isSBI` ternaries
are dead and the length is `this.val.toString(2).length`; any other input
(object, null, string) falls through to `return this.fromNull()`.  The
value is nonnegative (`supposed positive` per the source comment); when
the input is cut, the least-significant bits are shifted away. -/
def fromInt (val : Nat) (maxBits : Option Int) (onErr_cutLSD : Bool) : Except JsError Sbi :=
  match setBits_byMax maxBits (binLen val) onErr_cutLSD with
  | .error e => .error e
  | .ok (bits, cutFlag, _) =>
      .ok ⟨some (if cutFlag then val >>> (binLen val - bits) else val), bits⟩

/-- Source `SizedBigInt.fromBitString` (lines 1196-1203). -/
def fromBitString (s : List Char) (maxBits : Option Int) (onErr_cutLSD : Bool) :
    Except JsError Sbi :=
  if s = [] then .ok fromNull
  else
    match setBits_byMax maxBits s.length onErr_cutLSD with
    | .error e => .error e
    | .ok (bits, cutFlag, maxb) =>
        let s2 := if cutFlag then s.take maxb else s
        match parseBin s2 with
        | none => .error .syntaxError
        | some v => .ok ⟨some v, bits⟩

/-- Source `SizedBigInt.fromHexString` (lines 1253-1259): for non-empty
input it evaluates `BigInt("0x"+strval)` (a SyntaxError on an invalid
digit) and then calls `this.fromInt({val:val, bits:len}, ...)`.  That
argument is an object, so `fromInt`'s guard `t == 'bigint' || isNum`
(line 1241) rejects it and `fromInt` returns `this.fromNull()`: the
result is always the null state; `maxBits` and `onErr_cutLSD` are never
consulted. -/
def fromHexString (s : List Char) (_maxBits : Option Int) (_onErr_cutLSD : Bool) :
    Except JsError Sbi :=
  if s = [] then .ok fromNull
  else
    match parseHex s with
    | none => .error .syntaxError
    | some _ => .ok fromNull

/-- One entry of the `kx_baseLabel` registry (lines 1366-1406), with the
fields the conversion code reads. -/
structure BaseDef where
  base : Nat
  bitsPerDigit : Nat
  isHierar : Bool
  alphabet : List Char
deriving DecidableEq

/-- The `ordList` table of `kx_trConfig` (lines 1458-1460). -/
def ordList (base : Nat) : List (List Char) :=
  if base = 4 then [['0'], ['1']]
  else if base = 8 then
    [['0'], ['0', '0'], ['0', '1'], ['1'], ['1', '0'], ['1', '1']]
  else
    [['0'], ['0', '0'], ['0', '0', '0'], ['0', '0', '1'], ['0', '1'], ['0', '1', '0'],
     ['0', '1', '1'], ['1'], ['1', '0'], ['1', '0', '0'], ['1', '0', '1'], ['1', '1'],
     ['1', '1', '0'], ['1', '1', '1']]

/-- The `label-to-2` table built by `kx_trConfig` (lines 1445-1476): every
full digit maps to its zero-padded binary code, and for hierarchical bases
the reserved letters map to the short codes of `ordList`. -/
def trTo2 (r : BaseDef) : List (Char × List Char) :=
  ((List.range r.base).map fun i => (r.alphabet.getD i ' ', padStart r.bitsPerDigit '0' (natToBin i)))
    ++ (if r.isHierar then
          (ordList r.base).enum.map fun e => (r.alphabet.getD (r.base + e.1) ' ', e.2)
        else [])

/-- The swapped `2-to-label` table (`objSwap`, line 1475). -/
def tr2To (r : BaseDef) : List (List Char × Char) := (trTo2 r).map fun e => (e.2, e.1)

/-- Source `SizedBigInt.toBitString` (lines 1276-1280). -/
def toBitString (x : Sbi) : List Char :=
  match x.val with
  | none => []
  | some v => padStart x.bits '0' (natToBin v)

/-- The chunking loop of `toString` (lines 1299-1301): successive slices of
`bitsPerDigit` characters; the last slice may be shorter.  Fuel is the
length of the list, which is always sufficient for a positive chunk size. -/
def chunksOfF : Nat → Nat → List Char → List (List Char)
  | 0, _, _ => []
  | f + 1, k, s => if s = [] then [] else s.take k :: chunksOfF f k (s.drop k)

def chunksOf (k : Nat) (s : List Char) : List (List Char) := chunksOfF s.length k s

/-- Source `SizedBigInt.toString(radix)` (lines 1287-1303) for a resolved
base `r`.  A chunk that is missing from the table would render as JS
`undefined`; we return a placeholder there, and no verified statement ever
reaches that case. -/
def toString (r : BaseDef) (x : Sbi) : List Char :=
  match x.val with
  | none => []
  | some _ =>
      let b := toBitString x
      if r.base = 2 then b
      else (chunksOf r.bitsPerDigit b).map fun ch => ((tr2To r).lookup ch).getD '?'

/-- Source `SizedBigInt.fromString` (lines 1213-1228).  Line 1219 reads
`else if (r.label='16js')`: an assignment, not a comparison, so the branch
is always taken and every non-binary base is parsed as hexadecimal; the
per-alphabet translation loop below it is dead code. -/
def fromString (r : BaseDef) (s : List Char) (maxBits : Option Int) (onErr_cutLSD : Bool) :
    Except JsError Sbi :=
  if s = [] then .ok fromNull
  else if r.base = 2 then fromBitString s maxBits onErr_cutLSD
  else fromHexString s maxBits onErr_cutLSD

/-- Registry entry `2h` (lines 1368-1373). -/
def base2h : BaseDef := ⟨2, 1, true, ['0', '1']⟩

/-- Registry entry `4h` (lines 1374-1380). -/
def base4h : BaseDef := ⟨4, 2, true, ['0', '1', '2', '3', 'G', 'Q']⟩

/-- Registry entry `8h` (lines 1381-1387). -/
def base8h : BaseDef :=
  ⟨8, 3, true, ['0', '1', '2', '3', '4', '5', '6', '7', 'G', 'H', 'M', 'Q', 'R', 'V']⟩

/-- Registry entry `16h` (lines 1388-1394). -/
def base16h : BaseDef :=
  ⟨16, 4, true,
   ['0', '1', '2', '3', '4', '5', '6', '7'] ++ ['8', '9', 'a', 'b', 'c', 'd', 'e', 'f']
     ++ ['G', 'H', 'J', 'K', 'M', 'N', 'P', 'Q', 'R', 'S', 'T', 'V', 'Z', 'Y']⟩

/-- Registry entry `4js` (line 1395). -/
def base4js : BaseDef := ⟨4, 2, false, ['0', '1', '2', '3']⟩

end SizedBigInt

namespace GSfc4qLbl

/-- Source `GSfc4qLbl.setKey` (lines 921-924): `fromAny(key, base,
this.keyBits, true)`, which for a BigInt key is `fromInt`.  With
`onErr_cutLSD = true` the call cannot fail; the error branch keeps the old
state only to make the model total. -/
def setKey (g : GSfc4q.Grid) (key : Nat) (st : SizedBigInt.Sbi) : SizedBigInt.Sbi :=
  match SizedBigInt.fromInt key (some (g.keyBits : Int)) true with
  | .ok s => s
  | .error _ => st

/-- Source `GSfc4qLbl.setBkey_byIJ` (lines 962-968), with the Morton
strategy plugged in.  Only the upper bound `i > max || j > max` is
checked; the bkey reaching `setKey` is nonnegative, so `.toNat` is exact.
JS BigInt division `bkey/2n` truncates toward zero, which is `Int.tdiv`. -/
def setBkey_byIJ (g : GSfc4q.Grid) (st : SizedBigInt.Sbi) (i j : Int) : SizedBigInt.Sbi :=
  let max : Int := (g.nRefRows : Int) - 1
  if i > max ∨ j > max then st
  else
    let bkey := (GSfc4q.key_encode g Morton.bkey_encode i j).1
    setKey g (if g.isHalf then Int.tdiv bkey 2 else bkey).toNat st

end GSfc4qLbl

namespace Hilbert

/-- Source `GSfc4qLbl_Hilbert._rot(n, ij, rx, ry)` (lines 1082-1091): when
`ry == 0n`, first reflect both coordinates through `n - 1n - x` if
`rx == 1n`, then swap them (`ij.push(ij.shift())`); otherwise leave `ij`
unchanged. -/
def rot (n : Int) (ij : Int × Int) (rx ry : Int) : Int × Int :=
  if ry = 0 then
    let ij2 := if rx = 1 then (n - 1 - ij.1, n - 1 - ij.2) else ij
    (ij2.2, ij2.1)
  else ij

/-- Body of the `for (let s = 1n; s < nRefRows; s *= 2n)` loop of
`GSfc4qLbl_Hilbert._bkey_decode` (lines 1092-1105), with the iteration
count made explicit: for `nRefRows = 2^blevel` the body runs exactly
`blevel` times while `s` doubles from `1n`.  JS BigInt `&`, `^` and `/`
are the two's-complement `Int.land`, `Int.xor` and the truncating
`Int.tdiv`; `rx = 1n & (t/2n)`, `ry = 1n & (t ^ rx)`, then
`_rot(s, ij, rx, ry)`, `ij[0] += s*rx`, `ij[1] += s*ry`, `t /= 4n`. -/
def decodeLoop : Nat → Int → Int → Int × Int → Int × Int
  | 0, _, _, ij => ij
  | l + 1, s, t, ij =>
    let rx := Int.land 1 (t.tdiv 2)
    let ry := Int.land 1 (Int.xor t rx)
    let ij1 := rot s ij rx ry
    decodeLoop l (2 * s) (t.tdiv 4) (ij1.1 + s * rx, ij1.2 + s * ry)

/-- Source `GSfc4qLbl_Hilbert._bkey_decode(key, nRefRows)` (lines
1092-1105) with `nRefRows = 2^blevel`: `t = key`, `ij = [0n, 0n]`, then
the loop above.  The final `Number(...)` conversions are exact on the
declared 32-bit coordinate range and are modelled as the identity. -/
def bkey_decode (blevel : Nat) (key : Int) : Int × Int :=
  decodeLoop blevel 1 key (0, 0)

/-- Body of the `for (let s = nRefRows/2n; s >= 1n; s /= 2n)` loop of
`GSfc4qLbl_Hilbert._bkey_encode` (lines 1106-1116), with the iteration
count made explicit; the guard `1 ≤ s` mirrors the loop condition
`s >= 1n`.  Each pass adds `s*s * ((3n * rx) ^ ry)` where
`rx = (ij[0] & s) > 0n ? 1n : 0n` (same for `ry` with `ij[1]`), then
rotates `ij` and halves `s`. -/
def encodeLoop : Nat → Int → Int × Int → Int
  | 0, _, _ => 0
  | l + 1, s, ij =>
    if 1 ≤ s then
      let rx : Int := if 0 < Int.land ij.1 s then 1 else 0
      let ry : Int := if 0 < Int.land ij.2 s then 1 else 0
      s * s * Int.xor (3 * rx) ry + encodeLoop l (s.tdiv 2) (rot s ij rx ry)
    else 0

/-- Source `GSfc4qLbl_Hilbert._bkey_encode(i, j, nRefRows)` (lines
1106-1116) with `nRefRows = 2^blevel`: the scale starts at
`nRefRows / 2n` and the loop runs `blevel` times (for `blevel = 0` the
guard fails at once and the key is `0n`). -/
def bkey_encode (blevel : Nat) (i j : Int) : Int :=
  encodeLoop blevel (((2 : Int) ^ blevel).tdiv 2) (i, j)

/-- The `rx` flag drawn by the decode loop from the current base-4 digit
`d`: `1n & (t / 2n)` only depends on `t mod 4`. -/
def hdigitRx (d : Nat) : Nat := d / 2 % 2

/-- The `ry` flag drawn by the decode loop from the current base-4 digit
`d`: `1n & (t ^ rx)` only depends on `t mod 4`. -/
def hdigitRy (d : Nat) : Nat := (d ^^^ d / 2 % 2) % 2

/-- One pass of the decode loop at scale `s`, driven by the base-4 digit
`d` of the key: rotate, then translate by `(s*rx, s*ry)`. -/
def hstep (s : Int) (d : Nat) (ij : Int × Int) : Int × Int :=
  ((rot s ij (hdigitRx d : Int) (hdigitRy d : Int)).1 + s * (hdigitRx d : Int),
   (rot s ij (hdigitRx d : Int) (hdigitRy d : Int)).2 + s * (hdigitRy d : Int))

/-- The decode loop on a nonnegative (`Nat`) key, with the digit
extraction made explicit; proved equal to `decodeLoop` below. -/
def dLoop : Nat → Int → Nat → Int × Int → Int × Int
  | 0, _, _, ij => ij
  | l + 1, s, t, ij => dLoop l (2 * s) (t / 4) (hstep s (t % 4) ij)

/-- Two's-complement bit `l` of an integer, as the `0n`/`1n` flag the
encode loop computes from `(x & s) > 0n` at `s = 2^l`. -/
def ibit (l : Nat) (x : Int) : Int :=
  if 2 ^ l ≤ x % 2 ^ (l + 1) then 1 else 0

/-- The encode loop with the scale argument specialised to `2^l`; proved
equal to `encodeLoop` below. -/
def eLoop : Nat → Int × Int → Int
  | 0, _ => 0
  | l + 1, ij =>
    2 ^ l * 2 ^ l * Int.xor (3 * ibit l ij.1) (ibit l ij.2)
      + eLoop l (rot (2 ^ l) ij (ibit l ij.1) (ibit l ij.2))

end Hilbert

namespace Morton

theorem castM16 : (0x0000ffff0000ffff : Int) = ((0x0000ffff0000ffff : Nat) : Int) := by norm_cast

theorem castM8 : (0x00ff00ff00ff00ff : Int) = ((0x00ff00ff00ff00ff : Nat) : Int) := by norm_cast

theorem castM4 : (0x0f0f0f0f0f0f0f0f : Int) = ((0x0f0f0f0f0f0f0f0f : Nat) : Int) := by norm_cast

theorem castM2 : (0x3333333333333333 : Int) = ((0x3333333333333333 : Nat) : Int) := by norm_cast

theorem castM1 : (0x5555555555555555 : Int) = ((0x5555555555555555 : Nat) : Int) := by norm_cast

theorem castM32 : (0x00000000ffffffff : Int) = ((0x00000000ffffffff : Nat) : Int) := by norm_cast

theorem land_coe (m n : Nat) : Int.land (m : Int) (n : Int) = ((m &&& n : Nat) : Int) := rfl

theorem lor_coe (m n : Nat) : Int.lor (m : Int) (n : Int) = ((m ||| n : Nat) : Int) := rfl

theorem jsShl_coe (m k : Nat) : jsShl (m : Int) k = ((m <<< k : Nat) : Int) := by
  simp [jsShl, Nat.shiftLeft_eq]

theorem jsShr_coe (m k : Nat) : jsShr (m : Int) k = ((m >>> k : Nat) : Int) := rfl

theorem interleave_coe (x : Nat) : bkey_interleave (x : Int) = (interleaveN x : Int) := by
  simp only [bkey_interleave, interleaveN, castM16, castM8, castM4, castM2, castM1, jsShl_coe, lor_coe, land_coe]

theorem deinterleave_coe (x : Nat) : deinterleave (x : Int) = (deinterleaveN x : Int) := by
  simp only [deinterleave, deinterleaveN, castM32, castM16, castM8, castM4, castM2, castM1, jsShr_coe, lor_coe, land_coe]

theorem encode_coe (x y : Nat) : bkey_encode (x : Int) (y : Int) = (encodeN x y : Int) := by
  simp only [bkey_encode, encodeN, interleave_coe, jsShl_coe, lor_coe]

theorem decode_coe (d : Nat) :
    bkey_decode (d : Int) = ((deinterleaveN d : Int), (deinterleaveN (d >>> 1) : Int)) := by
  simp only [bkey_decode, deinterleave_coe, jsShr_coe]

/-! Bit-level characterization of the interleave masks.  Each mask keeps,
inside the 64-bit window, the low half of every `2g`-bit group. -/

theorem testBit_dead64 {m : Nat} (hm : m < 2 ^ 64) {p : Nat} (hp : 64 ≤ p) :
    m.testBit p = false :=
  Nat.testBit_lt_two_pow (lt_of_lt_of_le hm (Nat.pow_le_pow_right (by norm_num) hp))

theorem testBit_dead32 {x : Nat} (hx : x < 2 ^ 32) {e : Nat} (he : 32 ≤ e) :
    x.testBit e = false :=
  Nat.testBit_lt_two_pow (lt_of_lt_of_le hx (Nat.pow_le_pow_right (by norm_num) he))

theorem M16_bit :
    ∀ p, (0x0000ffff0000ffff : Nat).testBit p = (decide (p < 64) && decide (p % 32 < 16)) := by
  intro p
  by_cases h : p < 64
  · have key : ∀ q, q < 64 → (0x0000ffff0000ffff : Nat).testBit q = decide (q % 32 < 16) := by
      decide
    rw [key p h]
    simp [h]
  · rw [testBit_dead64 (by norm_num) (Nat.le_of_not_lt h)]
    simp [h]

theorem M8_bit :
    ∀ p, (0x00ff00ff00ff00ff : Nat).testBit p = (decide (p < 64) && decide (p % 16 < 8)) := by
  intro p
  by_cases h : p < 64
  · have key : ∀ q, q < 64 → (0x00ff00ff00ff00ff : Nat).testBit q = decide (q % 16 < 8) := by
      decide
    rw [key p h]
    simp [h]
  · rw [testBit_dead64 (by norm_num) (Nat.le_of_not_lt h)]
    simp [h]

theorem M4_bit :
    ∀ p, (0x0f0f0f0f0f0f0f0f : Nat).testBit p = (decide (p < 64) && decide (p % 8 < 4)) := by
  intro p
  by_cases h : p < 64
  · have key : ∀ q, q < 64 → (0x0f0f0f0f0f0f0f0f : Nat).testBit q = decide (q % 8 < 4) := by
      decide
    rw [key p h]
    simp [h]
  · rw [testBit_dead64 (by norm_num) (Nat.le_of_not_lt h)]
    simp [h]

theorem M2_bit :
    ∀ p, (0x3333333333333333 : Nat).testBit p = (decide (p < 64) && decide (p % 4 < 2)) := by
  intro p
  by_cases h : p < 64
  · have key : ∀ q, q < 64 → (0x3333333333333333 : Nat).testBit q = decide (q % 4 < 2) := by
      decide
    rw [key p h]
    simp [h]
  · rw [testBit_dead64 (by norm_num) (Nat.le_of_not_lt h)]
    simp [h]

theorem M1_bit :
    ∀ p, (0x5555555555555555 : Nat).testBit p = (decide (p < 64) && decide (p % 2 < 1)) := by
  intro p
  by_cases h : p < 64
  · have key : ∀ q, q < 64 → (0x5555555555555555 : Nat).testBit q = decide (q % 2 < 1) := by
      decide
    rw [key p h]
    simp [h]
  · rw [testBit_dead64 (by norm_num) (Nat.le_of_not_lt h)]
    simp [h]

theorem M32_bit :
    ∀ p, (0x00000000ffffffff : Nat).testBit p = (decide (p < 64) && decide (p % 64 < 32)) := by
  intro p
  by_cases h : p < 64
  · have key : ∀ q, q < 64 → (0x00000000ffffffff : Nat).testBit q = decide (q % 64 < 32) := by
      decide
    rw [key p h]
    simp [h]
  · rw [testBit_dead64 (by norm_num) (Nat.le_of_not_lt h)]
    simp [h]

/-! Invariant chain for `interleaveN`: after the stage of group size `g`,
bit `g*(p/2g) + p%2g` of the input sits at position `p` whenever
`p % 2g < g`, and every other position is clear. -/

theorem spread_base {x : Nat} (hx : x < 2 ^ 32) :
    ∀ p, x.testBit p = (decide (p % 64 < 32) && x.testBit (32 * (p / 64) + p % 64)) := by
  intro p
  by_cases h : p < 32
  · have h1 : p % 64 < 32 := by omega
    have h2 : 32 * (p / 64) + p % 64 = p := by omega
    simp [h1, h2]
  · rw [testBit_dead32 hx (by omega)]
    by_cases h1 : p % 64 < 32
    · have h2 : 32 ≤ 32 * (p / 64) + p % 64 := by omega
      rw [testBit_dead32 hx h2]
      simp
    · simp [h1]

theorem spread_step16 {x w : Nat} (hx : x < 2 ^ 32)
    (hw : ∀ q, w.testBit q = (decide (q % 64 < 32) && x.testBit (32 * (q / 64) + q % 64))) :
    ∀ p, ((w ||| w <<< 16) &&& 0x0000ffff0000ffff).testBit p
      = (decide (p % 32 < 16) && x.testBit (16 * (p / 32) + p % 32)) := by
  intro p
  rw [Nat.testBit_and, Nat.testBit_or, Nat.testBit_shiftLeft, M16_bit p, hw p, hw (p - 16)]
  by_cases hm : p % 32 < 16
  · by_cases hA : p % 64 < 16
    · have c1 : p % 64 < 32 := by omega
      have e1 : 32 * (p / 64) + p % 64 = 16 * (p / 32) + p % 32 := by omega
      by_cases h64 : p < 64
      · by_cases hs : 16 ≤ p
        · have c2 : ¬((p - 16) % 64 < 32) := by omega
          simp [hm, c1, e1, h64, hs, c2]
        · simp [hm, c1, e1, h64, hs]
      · have hdx : 32 ≤ 16 * (p / 32) + p % 32 := by omega
        simp [testBit_dead32 hx hdx, h64]
    · have c1 : ¬(p % 64 < 32) := by omega
      have c3 : p ≥ 16 := by omega
      have c4 : (p - 16) % 64 < 32 := by omega
      have e2 : 32 * ((p - 16) / 64) + (p - 16) % 64 = 16 * (p / 32) + p % 32 := by omega
      by_cases h64 : p < 64
      · simp [hm, c1, c3, c4, e2, h64]
      · have hdx : 32 ≤ 16 * (p / 32) + p % 32 := by omega
        simp [testBit_dead32 hx hdx, h64]
  · simp [hm]

theorem spread_step8 {x w : Nat} (hx : x < 2 ^ 32)
    (hw : ∀ q, w.testBit q = (decide (q % 32 < 16) && x.testBit (16 * (q / 32) + q % 32))) :
    ∀ p, ((w ||| w <<< 8) &&& 0x00ff00ff00ff00ff).testBit p
      = (decide (p % 16 < 8) && x.testBit (8 * (p / 16) + p % 16)) := by
  intro p
  rw [Nat.testBit_and, Nat.testBit_or, Nat.testBit_shiftLeft, M8_bit p, hw p, hw (p - 8)]
  by_cases hm : p % 16 < 8
  · by_cases hA : p % 32 < 8
    · have c1 : p % 32 < 16 := by omega
      have e1 : 16 * (p / 32) + p % 32 = 8 * (p / 16) + p % 16 := by omega
      by_cases h64 : p < 64
      · by_cases hs : 8 ≤ p
        · have c2 : ¬((p - 8) % 32 < 16) := by omega
          simp [hm, c1, e1, h64, hs, c2]
        · simp [hm, c1, e1, h64, hs]
      · have hdx : 32 ≤ 8 * (p / 16) + p % 16 := by omega
        simp [testBit_dead32 hx hdx, h64]
    · have c1 : ¬(p % 32 < 16) := by omega
      have c3 : p ≥ 8 := by omega
      have c4 : (p - 8) % 32 < 16 := by omega
      have e2 : 16 * ((p - 8) / 32) + (p - 8) % 32 = 8 * (p / 16) + p % 16 := by omega
      by_cases h64 : p < 64
      · simp [hm, c1, c3, c4, e2, h64]
      · have hdx : 32 ≤ 8 * (p / 16) + p % 16 := by omega
        simp [testBit_dead32 hx hdx, h64]
  · simp [hm]

theorem spread_step4 {x w : Nat} (hx : x < 2 ^ 32)
    (hw : ∀ q, w.testBit q = (decide (q % 16 < 8) && x.testBit (8 * (q / 16) + q % 16))) :
    ∀ p, ((w ||| w <<< 4) &&& 0x0f0f0f0f0f0f0f0f).testBit p
      = (decide (p % 8 < 4) && x.testBit (4 * (p / 8) + p % 8)) := by
  intro p
  rw [Nat.testBit_and, Nat.testBit_or, Nat.testBit_shiftLeft, M4_bit p, hw p, hw (p - 4)]
  by_cases hm : p % 8 < 4
  · by_cases hA : p % 16 < 4
    · have c1 : p % 16 < 8 := by omega
      have e1 : 8 * (p / 16) + p % 16 = 4 * (p / 8) + p % 8 := by omega
      by_cases h64 : p < 64
      · by_cases hs : 4 ≤ p
        · have c2 : ¬((p - 4) % 16 < 8) := by omega
          simp [hm, c1, e1, h64, hs, c2]
        · simp [hm, c1, e1, h64, hs]
      · have hdx : 32 ≤ 4 * (p / 8) + p % 8 := by omega
        simp [testBit_dead32 hx hdx, h64]
    · have c1 : ¬(p % 16 < 8) := by omega
      have c3 : p ≥ 4 := by omega
      have c4 : (p - 4) % 16 < 8 := by omega
      have e2 : 8 * ((p - 4) / 16) + (p - 4) % 16 = 4 * (p / 8) + p % 8 := by omega
      by_cases h64 : p < 64
      · simp [hm, c1, c3, c4, e2, h64]
      · have hdx : 32 ≤ 4 * (p / 8) + p % 8 := by omega
        simp [testBit_dead32 hx hdx, h64]
  · simp [hm]

theorem spread_step2 {x w : Nat} (hx : x < 2 ^ 32)
    (hw : ∀ q, w.testBit q = (decide (q % 8 < 4) && x.testBit (4 * (q / 8) + q % 8))) :
    ∀ p, ((w ||| w <<< 2) &&& 0x3333333333333333).testBit p
      = (decide (p % 4 < 2) && x.testBit (2 * (p / 4) + p % 4)) := by
  intro p
  rw [Nat.testBit_and, Nat.testBit_or, Nat.testBit_shiftLeft, M2_bit p, hw p, hw (p - 2)]
  by_cases hm : p % 4 < 2
  · by_cases hA : p % 8 < 2
    · have c1 : p % 8 < 4 := by omega
      have e1 : 4 * (p / 8) + p % 8 = 2 * (p / 4) + p % 4 := by omega
      by_cases h64 : p < 64
      · by_cases hs : 2 ≤ p
        · have c2 : ¬((p - 2) % 8 < 4) := by omega
          simp [hm, c1, e1, h64, hs, c2]
        · simp [hm, c1, e1, h64, hs]
      · have hdx : 32 ≤ 2 * (p / 4) + p % 4 := by omega
        simp [testBit_dead32 hx hdx, h64]
    · have c1 : ¬(p % 8 < 4) := by omega
      have c3 : p ≥ 2 := by omega
      have c4 : (p - 2) % 8 < 4 := by omega
      have e2 : 4 * ((p - 2) / 8) + (p - 2) % 8 = 2 * (p / 4) + p % 4 := by omega
      by_cases h64 : p < 64
      · simp [hm, c1, c3, c4, e2, h64]
      · have hdx : 32 ≤ 2 * (p / 4) + p % 4 := by omega
        simp [testBit_dead32 hx hdx, h64]
  · simp [hm]

theorem spread_step1 {x w : Nat} (hx : x < 2 ^ 32)
    (hw : ∀ q, w.testBit q = (decide (q % 4 < 2) && x.testBit (2 * (q / 4) + q % 4))) :
    ∀ p, ((w ||| w <<< 1) &&& 0x5555555555555555).testBit p
      = (decide (p % 2 < 1) && x.testBit (1 * (p / 2) + p % 2)) := by
  intro p
  rw [Nat.testBit_and, Nat.testBit_or, Nat.testBit_shiftLeft, M1_bit p, hw p, hw (p - 1)]
  by_cases hm : p % 2 < 1
  · by_cases hA : p % 4 < 1
    · have c1 : p % 4 < 2 := by omega
      have e1 : 2 * (p / 4) + p % 4 = 1 * (p / 2) + p % 2 := by omega
      by_cases h64 : p < 64
      · by_cases hs : 1 ≤ p
        · have c2 : ¬((p - 1) % 4 < 2) := by omega
          simp [hm, c1, e1, h64, hs, c2]
        · simp [hm, c1, e1, h64, hs]
      · have hdx : 32 ≤ 1 * (p / 2) + p % 2 := by omega
        simp [testBit_dead32 hx hdx, h64]
        intro h
        exact testBit_dead32 hx (by omega)
    · have c1 : ¬(p % 4 < 2) := by omega
      have c3 : p ≥ 1 := by omega
      have c4 : (p - 1) % 4 < 2 := by omega
      have e2 : 2 * ((p - 1) / 4) + (p - 1) % 4 = 1 * (p / 2) + p % 2 := by omega
      by_cases h64 : p < 64
      · simp [hm, c1, c3, c4, e2, h64]
      · have hdx : 32 ≤ 1 * (p / 2) + p % 2 := by omega
        simp [testBit_dead32 hx hdx, h64]
        intro h
        exact testBit_dead32 hx (by omega)
  · simp [hm]

theorem interleaveN_testBit {x : Nat} (hx : x < 2 ^ 32) :
    ∀ p, (interleaveN x).testBit p = (decide (p % 2 = 0) && x.testBit (p / 2)) := by
  have h0 := spread_base hx
  have h1 := spread_step16 hx h0
  have h2 := spread_step8 hx h1
  have h3 := spread_step4 hx h2
  have h4 := spread_step2 hx h3
  have h5 := spread_step1 hx h4
  intro p
  simp only [interleaveN]
  rw [h5 p]
  by_cases he : p % 2 = 0
  · have e : 1 * (p / 2) + p % 2 = p / 2 := by omega
    simp [he, e, show p % 2 < 1 by omega]
  · simp [he, show ¬(p % 2 < 1) by omega]

/-! Invariant chain for `deinterleaveN`: positions are gradually compacted;
`evenBit d i` is the ideal result bit `i`, i.e. bit `2*i` of the input. -/

theorem evenBit_dead (d : Nat) {i : Nat} (hi : 32 ≤ i) : evenBit d i = false := by
  simp [evenBit]
  omega

theorem gather_base (d : Nat) :
    ∀ q, (d &&& 0x5555555555555555).testBit q
      = (decide (q % 2 < 1) && evenBit d (1 * (q / 2) + q % 2)) := by
  intro q
  rw [Nat.testBit_and, M1_bit q]
  by_cases he : q % 2 < 1
  · have e : q / 2 + q % 2 = q / 2 := by omega
    by_cases h64 : q < 64
    · have e2 : 2 * (q / 2) = q := by omega
      simp [evenBit, he, h64, e, e2, show q / 2 < 32 by omega]
    · simp [evenBit, he, h64, e, show ¬(q / 2 < 32) by omega]
  · simp [he]

theorem gather_step2 {d y : Nat}
    (hy : ∀ q, y.testBit q = (decide (q % 2 < 1) && evenBit d (1 * (q / 2) + q % 2))) :
    ∀ p, ((y ||| y >>> 1) &&& 0x3333333333333333).testBit p
      = (decide (p % 4 < 2) && evenBit d (2 * (p / 4) + p % 4)) := by
  intro p
  rw [Nat.testBit_and, Nat.testBit_or, Nat.testBit_shiftRight, M2_bit p, hy p, hy (1 + p)]
  by_cases hm : p % 4 < 2
  · by_cases hA : p % 2 < 1
    · have c1 : ¬((1 + p) % 2 < 1) := by omega
      have e1 : p / 2 + p % 2 = 2 * (p / 4) + p % 4 := by omega
      by_cases h64 : p < 64
      · simp [hA, c1, e1, h64, Bool.and_comm]
      · have hdx : 32 ≤ 2 * (p / 4) + p % 4 := by omega
        simp [evenBit_dead d hdx, h64]
    · have c2 : (1 + p) % 2 < 1 := by omega
      have e2 : (1 + p) / 2 + (1 + p) % 2 = 2 * (p / 4) + p % 4 := by omega
      by_cases h64 : p < 64
      · simp [hA, c2, e2, h64, Bool.and_comm]
      · have hdx : 32 ≤ 2 * (p / 4) + p % 4 := by omega
        simp [evenBit_dead d hdx, h64]
  · simp [hm]

theorem gather_step4 {d y : Nat}
    (hy : ∀ q, y.testBit q = (decide (q % 4 < 2) && evenBit d (2 * (q / 4) + q % 4))) :
    ∀ p, ((y ||| y >>> 2) &&& 0x0f0f0f0f0f0f0f0f).testBit p
      = (decide (p % 8 < 4) && evenBit d (4 * (p / 8) + p % 8)) := by
  intro p
  rw [Nat.testBit_and, Nat.testBit_or, Nat.testBit_shiftRight, M4_bit p, hy p, hy (2 + p)]
  by_cases hm : p % 8 < 4
  · by_cases hA : p % 4 < 2
    · have c1 : ¬((2 + p) % 4 < 2) := by omega
      have e1 : 2 * (p / 4) + p % 4 = 4 * (p / 8) + p % 8 := by omega
      by_cases h64 : p < 64
      · simp [hA, c1, e1, h64, Bool.and_comm]
      · have hdx : 32 ≤ 4 * (p / 8) + p % 8 := by omega
        simp [evenBit_dead d hdx, h64]
    · have c2 : (2 + p) % 4 < 2 := by omega
      have e2 : 2 * ((2 + p) / 4) + (2 + p) % 4 = 4 * (p / 8) + p % 8 := by omega
      by_cases h64 : p < 64
      · simp [hA, c2, e2, h64, Bool.and_comm]
      · have hdx : 32 ≤ 4 * (p / 8) + p % 8 := by omega
        simp [evenBit_dead d hdx, h64]
  · simp [hm]

theorem gather_step8 {d y : Nat}
    (hy : ∀ q, y.testBit q = (decide (q % 8 < 4) && evenBit d (4 * (q / 8) + q % 8))) :
    ∀ p, ((y ||| y >>> 4) &&& 0x00ff00ff00ff00ff).testBit p
      = (decide (p % 16 < 8) && evenBit d (8 * (p / 16) + p % 16)) := by
  intro p
  rw [Nat.testBit_and, Nat.testBit_or, Nat.testBit_shiftRight, M8_bit p, hy p, hy (4 + p)]
  by_cases hm : p % 16 < 8
  · by_cases hA : p % 8 < 4
    · have c1 : ¬((4 + p) % 8 < 4) := by omega
      have e1 : 4 * (p / 8) + p % 8 = 8 * (p / 16) + p % 16 := by omega
      by_cases h64 : p < 64
      · simp [hA, c1, e1, h64, Bool.and_comm]
      · have hdx : 32 ≤ 8 * (p / 16) + p % 16 := by omega
        simp [evenBit_dead d hdx, h64]
    · have c2 : (4 + p) % 8 < 4 := by omega
      have e2 : 4 * ((4 + p) / 8) + (4 + p) % 8 = 8 * (p / 16) + p % 16 := by omega
      by_cases h64 : p < 64
      · simp [hA, c2, e2, h64, Bool.and_comm]
      · have hdx : 32 ≤ 8 * (p / 16) + p % 16 := by omega
        simp [evenBit_dead d hdx, h64]
  · simp [hm]

theorem gather_step16 {d y : Nat}
    (hy : ∀ q, y.testBit q = (decide (q % 16 < 8) && evenBit d (8 * (q / 16) + q % 16))) :
    ∀ p, ((y ||| y >>> 8) &&& 0x0000ffff0000ffff).testBit p
      = (decide (p % 32 < 16) && evenBit d (16 * (p / 32) + p % 32)) := by
  intro p
  rw [Nat.testBit_and, Nat.testBit_or, Nat.testBit_shiftRight, M16_bit p, hy p, hy (8 + p)]
  by_cases hm : p % 32 < 16
  · by_cases hA : p % 16 < 8
    · have c1 : ¬((8 + p) % 16 < 8) := by omega
      have e1 : 8 * (p / 16) + p % 16 = 16 * (p / 32) + p % 32 := by omega
      by_cases h64 : p < 64
      · simp [hA, c1, e1, h64, Bool.and_comm]
      · have hdx : 32 ≤ 16 * (p / 32) + p % 32 := by omega
        simp [evenBit_dead d hdx, h64]
    · have c2 : (8 + p) % 16 < 8 := by omega
      have e2 : 8 * ((8 + p) / 16) + (8 + p) % 16 = 16 * (p / 32) + p % 32 := by omega
      by_cases h64 : p < 64
      · simp [hA, c2, e2, h64, Bool.and_comm]
      · have hdx : 32 ≤ 16 * (p / 32) + p % 32 := by omega
        simp [evenBit_dead d hdx, h64]
  · simp [hm]

theorem gather_step32 {d y : Nat}
    (hy : ∀ q, y.testBit q = (decide (q % 32 < 16) && evenBit d (16 * (q / 32) + q % 32))) :
    ∀ p, ((y ||| y >>> 16) &&& 0x00000000ffffffff).testBit p
      = (decide (p % 64 < 32) && evenBit d (32 * (p / 64) + p % 64)) := by
  intro p
  rw [Nat.testBit_and, Nat.testBit_or, Nat.testBit_shiftRight, M32_bit p, hy p, hy (16 + p)]
  by_cases hm : p % 64 < 32
  · by_cases hA : p % 32 < 16
    · have c1 : ¬((16 + p) % 32 < 16) := by omega
      have e1 : 16 * (p / 32) + p % 32 = 32 * (p / 64) + p % 64 := by omega
      by_cases h64 : p < 64
      · simp [hA, c1, e1, h64, Bool.and_comm]
      · have hdx : 32 ≤ 32 * (p / 64) + p % 64 := by omega
        simp [evenBit_dead d hdx, h64]
    · have c2 : (16 + p) % 32 < 16 := by omega
      have e2 : 16 * ((16 + p) / 32) + (16 + p) % 32 = 32 * (p / 64) + p % 64 := by omega
      by_cases h64 : p < 64
      · simp [hA, c2, e2, h64, Bool.and_comm]
      · have hdx : 32 ≤ 32 * (p / 64) + p % 64 := by omega
        simp [evenBit_dead d hdx, h64]
  · simp [hm]

theorem deinterleaveN_testBit (d : Nat) :
    ∀ p, (deinterleaveN d).testBit p = (decide (p < 32) && d.testBit (2 * p)) := by
  have h0 := gather_base d
  have h1 := gather_step2 h0
  have h2 := gather_step4 h1
  have h3 := gather_step8 h2
  have h4 := gather_step16 h3
  have h5 := gather_step32 h4
  intro p
  simp only [deinterleaveN]
  rw [h5 p]
  by_cases hp : p < 32
  · simp [evenBit, hp, show p % 64 < 32 by omega, show 32 * (p / 64) + p % 64 = p by omega]
  · by_cases hm : p % 64 < 32
    · have hdx : 32 ≤ 32 * (p / 64) + p % 64 := by omega
      simp [evenBit_dead d hdx, hp, hm]
    · simp [hp, hm]

theorem encodeN_testBit {x y : Nat} (hx : x < 2 ^ 32) (hy : y < 2 ^ 32) :
    ∀ p, (encodeN x y).testBit p
      = (if p % 2 = 0 then x.testBit (p / 2) else y.testBit (p / 2)) := by
  intro p
  rw [encodeN, Nat.testBit_or, Nat.testBit_shiftLeft, interleaveN_testBit hx p]
  by_cases he : p % 2 = 0
  · by_cases h1 : 1 ≤ p
    · rw [interleaveN_testBit hy (p - 1)]
      have h2 : ¬((p - 1) % 2 = 0) := by omega
      simp [he, h1, h2]
    · simp [he, h1]
  · rw [interleaveN_testBit hy (p - 1)]
    have h1 : 1 ≤ p := by omega
    have h2 : (p - 1) % 2 = 0 := by omega
    have h3 : (p - 1) / 2 = p / 2 := by omega
    simp [he, h1, h2, h3]

theorem deinterleaveN_encodeN {x y : Nat} (hx : x < 2 ^ 32) (hy : y < 2 ^ 32) :
    deinterleaveN (encodeN x y) = x := by
  apply Nat.eq_of_testBit_eq
  intro i
  rw [deinterleaveN_testBit _ i, encodeN_testBit hx hy (2 * i)]
  by_cases hi : i < 32
  · simp [hi, Nat.mul_div_cancel_left, show 2 * i % 2 = 0 by omega, show 2 * i / 2 = i by omega]
  · simp [hi, testBit_dead32 hx (by omega : 32 ≤ i)]

theorem deinterleaveN_encodeN_shift {x y : Nat} (hx : x < 2 ^ 32) (hy : y < 2 ^ 32) :
    deinterleaveN (encodeN x y >>> 1) = y := by
  apply Nat.eq_of_testBit_eq
  intro i
  rw [deinterleaveN_testBit _ i, Nat.testBit_shiftRight, encodeN_testBit hx hy (1 + 2 * i)]
  by_cases hi : i < 32
  · simp [hi, show ¬((1 + 2 * i) % 2 = 0) by omega, show (1 + 2 * i) / 2 = i by omega]
  · simp [hi, testBit_dead32 hy (by omega : 32 ≤ i)]

theorem encodeN_lt {x y : Nat} (hx : x < 2 ^ 32) (hy : y < 2 ^ 32) :
    encodeN x y < 2 ^ 64 := by
  apply Nat.lt_pow_two_of_testBit
  intro i hi
  rw [encodeN_testBit hx hy i]
  by_cases he : i % 2 = 0
  · simp [he, testBit_dead32 hx (by omega : 32 ≤ i / 2)]
  · simp [he, testBit_dead32 hy (by omega : 32 ≤ i / 2)]

end Morton

namespace GSfc4q

theorem jsCeil_eq (q : ℚ) : jsCeil q = ⌈q⌉ := by
  have h : Rat.floor (-q) = ⌊-q⌋ := rfl
  rw [jsCeil, h, Int.floor_neg, neg_neg]

theorem jsCeil_one : jsCeil (1 : ℚ) = 1 := by
  rw [jsCeil_eq, Int.ceil_eq_iff] <;> norm_num

theorem jsCeil_half : jsCeil (1 / 2 : ℚ) = 1 := by
  rw [jsCeil_eq, Int.ceil_eq_iff] <;> norm_num

theorem jsCeil_03 : jsCeil (3 / 10 : ℚ) = 1 := by
  rw [jsCeil_eq, Int.ceil_eq_iff] <;> norm_num

theorem refreshCalc_one : refreshCalc 1 = .ok grid1 := by
  simp only [refreshCalc, jsCeil_one]
  norm_num [grid1]
  rfl

theorem refreshCalc_half : refreshCalc (1 / 2) = .ok grid05 := by
  simp only [refreshCalc, jsCeil_half]
  norm_num [grid05]
  rfl

theorem refreshCalc_03 : refreshCalc (3 / 10) = .ok grid05 := by
  simp only [refreshCalc, jsCeil_03]
  norm_num [grid05]
  rfl

theorem effLevel_ne_zero (arg prev : Option ℚ) : effLevel arg prev ≠ 0 := by
  unfold effLevel jsFalsyOr
  rcases arg with _ | a
  · rcases prev with _ | p
    · norm_num
    · by_cases hp : p = 0 <;> simp [hp]
  · by_cases ha : a = 0
    · rcases prev with _ | p
      · simp [ha]
      · by_cases hp : p = 0 <;> simp [ha, hp]
    · simp [ha]

end GSfc4q

theorem testBit_coe (k : Nat) (i : Nat) : Int.testBit (k : Int) i = k.testBit i := rfl

/-- C2: for every pair of integers `x`, `y` with `0 ≤ x, y < 2^32`, the
Morton strategy satisfies `bkey_decode (bkey_encode x y) = (x, y)` and
`bkey_encode x y < 2^64`, and `bkey_encode` places bit `b` of `x` at even
bit position `2b` and bit `b` of `y` at odd bit position `2b+1`. -/
theorem C2_morton_encode_decode_inverse (x y : Int)
    (hx0 : 0 ≤ x) (hx : x < 2 ^ 32) (hy0 : 0 ≤ y) (hy : y < 2 ^ 32) :
    Morton.bkey_decode (Morton.bkey_encode x y) = (x, y) ∧
    Morton.bkey_encode x y < 2 ^ 64 ∧
    (∀ b : Nat, (Morton.bkey_encode x y).testBit (2 * b) = x.testBit b ∧
      (Morton.bkey_encode x y).testBit (2 * b + 1) = y.testBit b) := by
  obtain ⟨m, rfl⟩ := Int.eq_ofNat_of_zero_le hx0
  obtain ⟨n, rfl⟩ := Int.eq_ofNat_of_zero_le hy0
  have hm : m < 2 ^ 32 := by exact_mod_cast hx
  have hn : n < 2 ^ 32 := by exact_mod_cast hy
  refine ⟨?_, ?_, ?_⟩
  · rw [Morton.encode_coe, Morton.decode_coe, Morton.deinterleaveN_encodeN hm hn,
      Morton.deinterleaveN_encodeN_shift hm hn]
  · rw [Morton.encode_coe]
    exact_mod_cast Morton.encodeN_lt hm hn
  · intro b
    rw [Morton.encode_coe]
    simp only [testBit_coe]
    rw [Morton.encodeN_testBit hm hn (2 * b), Morton.encodeN_testBit hm hn (2 * b + 1)]
    constructor
    · simp [show 2 * b % 2 = 0 by omega, show 2 * b / 2 = b by omega]
    · simp [show ¬(2 * b + 1) % 2 = 0 by omega, show (2 * b + 1) / 2 = b by omega]

theorem C2_morton_encode_decode_inverse_witness :
    Morton.bkey_decode (Morton.bkey_encode 3 5) = (3, 5) :=
  (C2_morton_encode_decode_inverse 3 5 (by norm_num) (by norm_num) (by norm_num)
    (by norm_num)).1

/-- C5: whenever `isHalf` holds, `key_decode key` is exactly the pair
`(bkey_decode (2*key), bkey_decode (2*key+1))`; at level 0.5 with the
Morton strategy `nKeys = 2`, `key_decode 0 = ((0,0),(1,0))` and
`key_decode 1 = ((0,1),(1,1))`. -/
theorem C5_half_level_key_decode :
    (∀ {α : Type} (g : GSfc4q.Grid) (dec : Nat → α) (key : Nat), g.isHalf = true →
      GSfc4q.key_decode g dec key = (dec (2 * key), some (dec (2 * key + 1)))) ∧
    GSfc4q.refreshCalc (1 / 2) = .ok GSfc4q.grid05 ∧
    GSfc4q.grid05.nKeys = 2 ∧
    GSfc4q.key_decode GSfc4q.grid05 (fun k => Morton.bkey_decode (k : Int)) 0
      = ((0, 0), some (1, 0)) ∧
    GSfc4q.key_decode GSfc4q.grid05 (fun k => Morton.bkey_decode (k : Int)) 1
      = ((0, 1), some (1, 1)) := by
  refine ⟨?_, GSfc4q.refreshCalc_half, rfl, by decide, by decide⟩
  intro α g dec key h
  simp [GSfc4q.key_decode, h]

theorem C5_half_level_key_decode_witness :
    GSfc4q.key_decode GSfc4q.grid05 (fun k => Morton.bkey_decode (k : Int)) 1
      = (Morton.bkey_decode ((2 : Nat) : Int), some (Morton.bkey_decode ((3 : Nat) : Int))) :=
  C5_half_level_key_decode.1 GSfc4q.grid05 (fun k => Morton.bkey_decode (k : Int)) 1 rfl

/-- C6 counterexample: the claim says `refresh(0.3)` must fail with an
`InvalidLevel` error and configure no grid; in the source there is no level
validation at all, and `refresh(0.3)` silently configures the level-0.5
grid (`blevel = 1`, `isHalf`, `nKeys = 2`). -/
theorem C6_invalid_level_counterexample :
    GSfc4q.refreshCalc (3 / 10) = .ok GSfc4q.grid05 :=
  GSfc4q.refreshCalc_03

/-- C6 amended: `refresh` performs no level validation and raises no
`InvalidLevel` error.  Every level with non-negative ceiling is accepted:
a non-integer level `lvl` is silently configured as the half level
`ceil(lvl) - 0.5` (so 0.3 yields the 0.5 grid).  The only failure is the
JS `RangeError` from `4n ** BigInt(blevel)` when `ceil(lvl) < 0`. -/
theorem C6_no_invalid_level_error (lvl : ℚ) :
    (0 ≤ GSfc4q.jsCeil lvl → ((GSfc4q.jsCeil lvl : ℚ) ≠ lvl) →
      ∃ g : GSfc4q.Grid, GSfc4q.refreshCalc lvl = .ok g ∧ g.isHalf = true ∧
        g.level = (GSfc4q.jsCeil lvl : ℚ) - 1 / 2 ∧ g.blevel = GSfc4q.jsCeil lvl) ∧
    (GSfc4q.jsCeil lvl < 0 → GSfc4q.refreshCalc lvl = .error .rangeError) := by
  constructor
  · intro h0 hne
    refine ⟨⟨(GSfc4q.jsCeil lvl : ℚ) - 1 / 2, GSfc4q.jsCeil lvl, true,
        4 ^ (GSfc4q.jsCeil lvl).toNat / 2, 4 ^ (GSfc4q.jsCeil lvl).toNat,
        binLen (4 ^ (GSfc4q.jsCeil lvl).toNat - 1) - 1,
        binLen (4 ^ (GSfc4q.jsCeil lvl).toNat - 1), 2 ^ (GSfc4q.jsCeil lvl).toNat⟩,
      ?_, rfl, rfl, rfl⟩
    simp only [GSfc4q.refreshCalc]
    rw [if_neg (by omega)]
    simp [hne]
  · intro h
    simp only [GSfc4q.refreshCalc]
    rw [if_pos h]

theorem C6_no_invalid_level_error_witness :
    ∃ g : GSfc4q.Grid, GSfc4q.refreshCalc (3 / 10) = .ok g ∧ g.isHalf = true ∧
      g.level = (GSfc4q.jsCeil (3 / 10) : ℚ) - 1 / 2 ∧ g.blevel = GSfc4q.jsCeil (3 / 10) :=
  (C6_no_invalid_level_error (3 / 10)).1
    (by rw [GSfc4q.jsCeil_03]; norm_num)
    (by rw [GSfc4q.jsCeil_03]; norm_num)

/-- C7 counterexample: the claim says `key_decode key` fails with an
`OutOfRange` error for every `key ≥ nKeys`; in the source there is no
range check, and at Morton level 1 (`nKeys = 4`) `key_decode 4` silently
returns the coordinate pair `(2,0)` (outside the 2x2 grid). -/
theorem C7_out_of_range_counterexample :
    GSfc4q.grid1.nKeys = 4 ∧
    GSfc4q.key_decode GSfc4q.grid1 (fun k => Morton.bkey_decode (k : Int)) 4
      = ((2, 0), none) := by
  exact ⟨rfl, by decide⟩

/-- C7 amended: `key_decode` and `key_encode` perform no range validation
and never raise `OutOfRange`: every input, in range or not, is processed by
the same formulas.  At Morton level 1 (`nKeys = 4`, `nRefRows = 2`),
`key_decode 4 = ((2,0), null)` (a coordinate outside the grid) and
`key_encode 2 2 = (12, null)` (a bkey at or beyond `nBKeys`). -/
theorem C7_no_out_of_range_error :
    (∀ {α : Type} (g : GSfc4q.Grid) (dec : Nat → α) (key : Nat),
      GSfc4q.key_decode g dec key
        = if g.isHalf then (dec (2 * key), some (dec (2 * key + 1))) else (dec key, none)) ∧
    (∀ (g : GSfc4q.Grid) (enc : Int → Int → Int) (i j : Int),
      GSfc4q.key_encode g enc i j
        = if g.isHalf then
            (jsShl (jsShr (enc i j) 1) 1, some (jsShl (jsShr (enc i j) 1) 1 + 1))
          else (enc i j, none)) ∧
    GSfc4q.refreshCalc 1 = .ok GSfc4q.grid1 ∧
    GSfc4q.key_decode GSfc4q.grid1 (fun k => Morton.bkey_decode (k : Int)) 4
      = ((2, 0), none) ∧
    GSfc4q.key_encode GSfc4q.grid1 Morton.bkey_encode 2 2 = (12, none) := by
  refine ⟨fun g dec key => rfl, fun g enc i j => rfl, GSfc4q.refreshCalc_one, by decide,
    by decide⟩

/-- C10: `refresh(0)` (and the constructor with level 0) never configures
the level-0 grid: the `level || this.level || 1` truthiness test treats 0
as absent, so the previous level (or the default 1) is used instead, and
no reachable grid has `blevel = 0` with `nKeys = 1`. -/
theorem C10_level_zero_unreachable :
    (∀ p : ℚ, p ≠ 0 → GSfc4q.refresh (some p) (some 0) = GSfc4q.refreshCalc p) ∧
    GSfc4q.refresh none (some 0) = GSfc4q.refreshCalc 1 ∧
    (∀ (prev arg : Option ℚ) (g : GSfc4q.Grid),
      GSfc4q.refresh prev arg = .ok g → ¬(g.blevel = 0 ∧ g.nKeys = 1)) := by
  refine ⟨?_, ?_, ?_⟩
  · intro p hp
    simp [GSfc4q.refresh, GSfc4q.effLevel, GSfc4q.jsFalsyOr, hp]
  · simp [GSfc4q.refresh, GSfc4q.effLevel, GSfc4q.jsFalsyOr]
  · intro prev arg g hok hcontra
    obtain ⟨hb, hk⟩ := hcontra
    have hq := GSfc4q.effLevel_ne_zero arg prev
    unfold GSfc4q.refresh at hok
    generalize hL : GSfc4q.effLevel arg prev = lvl at hok hq
    unfold GSfc4q.refreshCalc at hok
    by_cases hneg : GSfc4q.jsCeil lvl < 0
    · rw [if_pos hneg] at hok
      exact absurd hok (by simp)
    · rw [if_neg hneg] at hok
      injection hok with hok
      subst hok
      simp only at hb hk
      simp [hb] at hk
      exact hq hk.symm

theorem C10_level_zero_unreachable_witness :
    ¬(GSfc4q.grid1.blevel = 0 ∧ GSfc4q.grid1.nKeys = 1) :=
  C10_level_zero_unreachable.2.2 none (some 0) GSfc4q.grid1
    (by rw [C10_level_zero_unreachable.2.1]; exact GSfc4q.refreshCalc_one)

namespace SizedBigInt

theorem natToBinF_fuel_eq : ∀ (f g n : Nat), n < f → n < g → natToBinF f n = natToBinF g n := by
  intro f
  induction f with
  | zero => intro g n h _; omega
  | succ f ih =>
    intro g n hf hg
    cases g with
    | zero => omega
    | succ g =>
      show (if n < 2 then [Nat.digitChar n] else natToBinF f (n / 2) ++ [Nat.digitChar (n % 2)])
        = (if n < 2 then [Nat.digitChar n] else natToBinF g (n / 2) ++ [Nat.digitChar (n % 2)])
      by_cases h2 : n < 2
      · simp [h2]
      · simp only [if_neg h2]
        rw [ih g (n / 2) (by omega) (by omega)]

theorem natToBin_lt_two {n : Nat} (h : n < 2) : natToBin n = [Nat.digitChar n] := by
  have h1 : natToBin n
      = if n < 2 then [Nat.digitChar n] else natToBinF n (n / 2) ++ [Nat.digitChar (n % 2)] := rfl
  rw [h1, if_pos h]

theorem natToBin_ge_two {n : Nat} (h : 2 ≤ n) :
    natToBin n = natToBin (n / 2) ++ [Nat.digitChar (n % 2)] := by
  have h1 : natToBin n
      = if n < 2 then [Nat.digitChar n] else natToBinF n (n / 2) ++ [Nat.digitChar (n % 2)] := rfl
  rw [h1, if_neg (by omega)]
  congr 1
  exact natToBinF_fuel_eq n (n / 2 + 1) (n / 2) (by omega) (by omega)

theorem parseVal_append (s : List Char) (c : Char) :
    parseVal (s ++ [c]) = 2 * parseVal s + bitVal c := by
  simp [parseVal, List.foldl_append]

theorem validBin_split {s t : List Char} (h : validBin (s ++ t) = true) :
    validBin s = true ∧ validBin t = true := by
  simp only [validBin, List.all_append, Bool.and_eq_true] at h
  exact h

theorem validBin_last {s : List Char} {c : Char} (h : validBin (s ++ [c]) = true) :
    validBin s = true ∧ (c = '0' ∨ c = '1') := by
  obtain ⟨h1, h2⟩ := validBin_split h
  refine ⟨h1, ?_⟩
  simp [validBin] at h2
  tauto

theorem parseVal_zero_replicate :
    ∀ {s : List Char}, validBin s = true → parseVal s = 0 → s = List.replicate s.length '0' := by
  intro s
  induction s using List.reverseRecOn with
  | nil => intro _ _; rfl
  | append_singleton s c ih =>
    intro hv h0
    obtain ⟨hvs, hc⟩ := validBin_last hv
    rw [parseVal_append] at h0
    have hps : parseVal s = 0 := by omega
    have hbv : bitVal c = 0 := by omega
    have hc0 : c = '0' := by
      rcases hc with rfl | rfl
      · rfl
      · exact absurd hbv (by simp [bitVal])
    subst hc0
    calc s ++ ['0'] = List.replicate s.length '0' ++ ['0'] := by rw [← ih hvs hps]
    _ = List.replicate (s.length + 1) '0' := (List.replicate_succ' _ _).symm
    _ = List.replicate ((s ++ ['0']).length) '0' := by simp

theorem padStart_append_one (n : Nat) (l : List Char) (d : Char) :
    padStart (n + 1) '0' (l ++ [d]) = padStart n '0' l ++ [d] := by
  simp only [padStart, List.length_append, List.length_singleton]
  rw [show n + 1 - (l.length + 1) = n - l.length by omega, List.append_assoc]

theorem pad_natToBin_parseVal :
    ∀ {s : List Char}, validBin s = true → s ≠ [] →
      padStart s.length '0' (natToBin (parseVal s)) = s := by
  intro s
  induction s using List.reverseRecOn with
  | nil => intro _ h; exact absurd rfl h
  | append_singleton s c ih =>
    intro hv _
    obtain ⟨hvs, hc⟩ := validBin_last hv
    by_cases hs : s = []
    · subst hs
      rcases hc with rfl | rfl
      · rfl
      · rfl
    · rw [parseVal_append]
      have hlen : (s ++ [c]).length = s.length + 1 := by simp
      by_cases hp : parseVal s = 0
      · have hz := parseVal_zero_replicate hvs hp
        rw [hp]
        rcases hc with rfl | rfl
        · rw [show 2 * 0 + bitVal '0' = 0 from rfl, natToBin_lt_two (by norm_num), hlen,
            show (Nat.digitChar 0) = '0' from rfl]
          simp only [padStart, List.length_singleton]
          rw [show s.length + 1 - 1 = s.length by omega, ← hz]
        · rw [show 2 * 0 + bitVal '1' = 1 from rfl, natToBin_lt_two (by norm_num), hlen,
            show (Nat.digitChar 1) = '1' from rfl]
          simp only [padStart, List.length_singleton]
          rw [show s.length + 1 - 1 = s.length by omega, ← hz]
      · have hbd : bitVal c < 2 := by
          rcases hc with rfl | rfl
          · decide
          · decide
        have h2 : 2 ≤ 2 * parseVal s + bitVal c := by omega
        rw [natToBin_ge_two h2,
          show (2 * parseVal s + bitVal c) / 2 = parseVal s by omega,
          show (2 * parseVal s + bitVal c) % 2 = bitVal c by omega,
          hlen, padStart_append_one, ih hvs hs]
        congr 1
        rcases hc with rfl | rfl
        · rfl
        · rfl

theorem fromBitString_none_maxBits {s : List Char} (hv : validBin s = true) (hne : s ≠ []) :
    fromBitString s none true = .ok ⟨some (parseVal s), s.length⟩ := by
  unfold fromBitString
  rw [if_neg hne]
  simp [setBits_byMax, parseBin, hv]

theorem toBitString_fromBitString {s : List Char} (hv : validBin s = true) (hne : s ≠ []) :
    toBitString ⟨some (parseVal s), s.length⟩ = s := by
  show padStart s.length '0' (natToBin (parseVal s)) = s
  exact pad_natToBin_parseVal hv hne

theorem chunksOfF_fuel_eq {k : Nat} (hk : 1 ≤ k) :
    ∀ (f g : Nat) (s : List Char), s.length ≤ f → s.length ≤ g →
      chunksOfF f k s = chunksOfF g k s := by
  intro f
  induction f with
  | zero =>
    intro g s hf _
    have : s = [] := by
      cases s with
      | nil => rfl
      | cons a l => simp at hf
    subst this
    cases g with
    | zero => rfl
    | succ g => rfl
  | succ f ih =>
    intro g s hf hg
    cases g with
    | zero =>
      have : s = [] := by
        cases s with
        | nil => rfl
        | cons a l => simp at hg
      subst this
      rfl
    | succ g =>
      show (if s = [] then [] else s.take k :: chunksOfF f k (s.drop k))
        = (if s = [] then [] else s.take k :: chunksOfF g k (s.drop k))
      by_cases hs : s = []
      · simp [hs]
      · simp only [if_neg hs]
        have hd : (s.drop k).length ≤ f := by
          have h1 : 1 ≤ s.length := by
            cases s with
            | nil => exact absurd rfl hs
            | cons a l => simp
          simp only [List.length_drop]
          omega
        have hd2 : (s.drop k).length ≤ g := by
          have h1 : 1 ≤ s.length := by
            cases s with
            | nil => exact absurd rfl hs
            | cons a l => simp
          simp only [List.length_drop]
          omega
        rw [ih g (s.drop k) hd hd2]

theorem chunksOf_cons {k : Nat} (hk : 1 ≤ k) {s : List Char} (hs : s ≠ []) :
    chunksOf k s = s.take k :: chunksOf k (s.drop k) := by
  obtain ⟨a, l, rfl⟩ : ∃ a l, s = a :: l := by
    cases s with
    | nil => exact absurd rfl hs
    | cons a l => exact ⟨a, l, rfl⟩
  show chunksOfF (l.length + 1) k (a :: l) = _
  rw [show chunksOfF (l.length + 1) k (a :: l)
      = if (a :: l) = [] then [] else (a :: l).take k :: chunksOfF l.length k ((a :: l).drop k)
    from rfl]
  rw [if_neg (by simp)]
  congr 1
  show chunksOfF l.length k ((a :: l).drop k)
    = chunksOfF ((a :: l).drop k).length k ((a :: l).drop k)
  apply chunksOfF_fuel_eq hk
  · simp only [List.length_drop, List.length_cons]
    omega
  · omega

theorem chunksOf_append {k : Nat} (hk : 1 ≤ k) (s t : List Char) (hdvd : k ∣ s.length) :
    chunksOf k (s ++ t) = chunksOf k s ++ chunksOf k t := by
  obtain ⟨c, hc⟩ := hdvd
  induction c generalizing s with
  | zero =>
    have hs0 : s = [] := by
      cases s with
      | nil => rfl
      | cons a l => simp at hc
    subst hs0
    simp [chunksOf, chunksOfF]
  | succ c ih =>
    have hpos : 0 < k * (c + 1) := Nat.mul_pos (by omega) (by omega)
    have hs : s ≠ [] := by
      intro h
      rw [h] at hc
      simp at hc
      omega
    have hkle : k ≤ s.length := by
      rw [hc]
      exact Nat.le_mul_of_pos_right k (by omega)
    by_cases hst : t = []
    · subst hst
      simp [chunksOf, chunksOfF]
    · have hste : s ++ t ≠ [] := by simp [hs]
      rw [chunksOf_cons hk hste, chunksOf_cons hk hs]
      rw [List.take_append_of_le_length hkle, List.drop_append_of_le_length hkle]
      have hdl : (s.drop k).length = k * c := by
        rw [List.length_drop, hc, Nat.mul_succ]
        omega
      rw [ih (s.drop k) hdl]
      simp

theorem toString_some (r : BaseDef) (v bits : Nat) :
    toString r ⟨some v, bits⟩
      = (if r.base = 2 then toBitString ⟨some v, bits⟩
         else (chunksOf r.bitsPerDigit (toBitString ⟨some v, bits⟩)).map
            fun ch => ((tr2To r).lookup ch).getD '?') := rfl

theorem toString_fromNull (r : BaseDef) : toString r fromNull = [] := rfl

end SizedBigInt

/-- C3 counterexample: for the hierarchical base `4h`, the bit-string `0`
renders as `G` while its extension `00` renders as `0`, so the rendered
string of a bit-string is in general NOT a character-prefix of the
rendering of its extensions (the claim fails whenever the length of the
shorter bit-string is not a multiple of `bitsPerDigit`). -/
theorem C3_prefix_counterexample :
    SizedBigInt.fromBitString ['0'] none true = .ok ⟨some 0, 1⟩ ∧
    SizedBigInt.fromBitString ['0', '0'] none true = .ok ⟨some 0, 2⟩ ∧
    SizedBigInt.toString SizedBigInt.base4h ⟨some 0, 1⟩ = ['G'] ∧
    SizedBigInt.toString SizedBigInt.base4h ⟨some 0, 2⟩ = ['0'] ∧
    ¬(SizedBigInt.toString SizedBigInt.base4h ⟨some 0, 1⟩
        <+: SizedBigInt.toString SizedBigInt.base4h ⟨some 0, 2⟩) := by
  refine ⟨rfl, rfl, rfl, rfl, ?_⟩
  decide

/-- C3 amended: for every hierarchical base (2h, 4h, 8h, 16h) and every
valid bit-string `b` whose length is a multiple of the base's
`bitsPerDigit` (always true for `2h`), the string rendered from `b` is a
literal character-prefix of the string rendered from any extension
`b ++ tail`.  When the length of `b` is not such a multiple the property
fails (see the counterexample). -/
theorem C3_hierarchical_prefix (r : SizedBigInt.BaseDef)
    (hr : r = SizedBigInt.base2h ∨ r = SizedBigInt.base4h ∨ r = SizedBigInt.base8h ∨
      r = SizedBigInt.base16h)
    (s t : List Char) (hv : SizedBigInt.validBin (s ++ t) = true)
    (hdvd : r.bitsPerDigit ∣ s.length) :
    ∃ x y, SizedBigInt.fromBitString s none true = .ok x ∧
      SizedBigInt.fromBitString (s ++ t) none true = .ok y ∧
      SizedBigInt.toString r x <+: SizedBigInt.toString r y := by
  have hbpd : 1 ≤ r.bitsPerDigit := by
    rcases hr with rfl | rfl | rfl | rfl
    · decide
    · decide
    · decide
    · decide
  obtain ⟨hvs, hvt⟩ := SizedBigInt.validBin_split hv
  by_cases hs : s = []
  · subst hs
    by_cases ht : t = []
    · subst ht
      exact ⟨SizedBigInt.fromNull, SizedBigInt.fromNull, rfl, rfl, List.nil_prefix⟩
    · refine ⟨SizedBigInt.fromNull, ⟨some (SizedBigInt.parseVal t), t.length⟩, rfl,
        SizedBigInt.fromBitString_none_maxBits hvt ht, ?_⟩
      rw [SizedBigInt.toString_fromNull]
      exact List.nil_prefix
  · have hst : s ++ t ≠ [] := by simp [hs]
    refine ⟨⟨some (SizedBigInt.parseVal s), s.length⟩,
      ⟨some (SizedBigInt.parseVal (s ++ t)), (s ++ t).length⟩,
      SizedBigInt.fromBitString_none_maxBits hvs hs,
      SizedBigInt.fromBitString_none_maxBits hv hst, ?_⟩
    rw [SizedBigInt.toString_some, SizedBigInt.toString_some,
      SizedBigInt.toBitString_fromBitString hvs hs,
      SizedBigInt.toBitString_fromBitString hv hst]
    by_cases hb2 : r.base = 2
    · simp only [if_pos hb2]
      exact List.prefix_append s t
    · simp only [if_neg hb2]
      rw [SizedBigInt.chunksOf_append hbpd s t hdvd, List.map_append]
      exact List.prefix_append _ _

theorem C3_hierarchical_prefix_witness :
    ∃ x y, SizedBigInt.fromBitString ['0', '1'] none true = .ok x ∧
      SizedBigInt.fromBitString (['0', '1'] ++ ['1']) none true = .ok y ∧
      SizedBigInt.toString SizedBigInt.base4h x <+: SizedBigInt.toString SizedBigInt.base4h y :=
  C3_hierarchical_prefix SizedBigInt.base4h (Or.inr (Or.inl rfl)) ['0', '1'] ['1']
    (by decide) (by decide)

/-- C4: the claim (round trip `fromString (toString x base) base = x` for
every registered base) is what the surrounding code clearly intends, but
line 1219 of the source reads `else if (r.label='16js')` — an assignment
instead of a comparison — so every non-binary base is routed to
`fromHexString`; `fromHexString` then hands `fromInt` an object that the
guard at line 1241 rejects, so `fromInt` falls through to `fromNull()`.
Evaluating the code at the failing input: the `4js` value
`x = (val 1, bits 2)` renders as the string `1`, and parsing that string
back in base `4js` yields the null state `(val null, bits 0)` ≠ `x`. -/
theorem C4_fromString_hex_bug :
    SizedBigInt.toString SizedBigInt.base4js ⟨some 1, 2⟩ = ['1'] ∧
    SizedBigInt.fromString SizedBigInt.base4js ['1'] none true = .ok ⟨none, 0⟩ ∧
    (⟨none, 0⟩ : SizedBigInt.Sbi) ≠ (⟨some 1, 2⟩ : SizedBigInt.Sbi) := by
  refine ⟨rfl, rfl, ?_⟩
  decide

/-- C8 counterexample: the claim says that without explicit permission a
construction whose input needs more than `maxBits` bits must fail with
`BitWidthExceeded`; but `onErr_cutLSD` defaults to `true` in every entry
point of the source, so the default behaviour silently truncates:
`fromInt 7 (maxBits 2)` returns value `3` (= 7 with the lowest bit
dropped) with width 2 and raises nothing. -/
theorem C8_silent_truncation_counterexample :
    SizedBigInt.fromInt 7 (some 2) true = .ok ⟨some 3, 2⟩ := rfl

/-- C8 amended: when a positive `maxBits` is smaller than the natural
bit-length of the value, construction fails with `ERR4` (the spec's
`BitWidthExceeded`) only when the caller explicitly passes
`onErr_cutLSD = false`; with the JS default `onErr_cutLSD = true` the
least-significant bits are silently dropped and the narrower width is
recorded — truncation, not failure, is the default policy. -/
theorem C8_truncation_policy (val : Nat) (mb : Int)
    (hmb : 0 < mb) (hlen : mb.natAbs < binLen val) :
    SizedBigInt.fromInt val (some mb) false = .error .err4 ∧
    SizedBigInt.fromInt val (some mb) true
      = .ok ⟨some (val >>> (binLen val - mb.natAbs)), mb.natAbs⟩ := by
  have h0 : ¬(mb = 0) := by omega
  have hneg : ¬(mb < 0) := by omega
  constructor
  · simp [SizedBigInt.fromInt, SizedBigInt.setBits_byMax, h0, hneg, hlen]
  · simp [SizedBigInt.fromInt, SizedBigInt.setBits_byMax, h0, hneg, hlen]

theorem C8_truncation_policy_witness :
    SizedBigInt.fromInt 7 (some 2) false = .error .err4 :=
  (C8_truncation_policy 7 2 (by norm_num) (by decide)).1

theorem ldiff_self_zero (n : Nat) : Nat.ldiff n 0 = n := by
  apply Nat.eq_of_testBit_eq
  intro i
  rw [Nat.testBit_ldiff]
  simp

theorem interleave_neg_one : Morton.bkey_interleave (-1) = 0x5555555555555555 := by
  have e1 : Int.lor (-1) (jsShl (-1) 16) = -1 := by decide
  have h1 : Int.land (Int.lor (-1) (jsShl (-1) 16)) 0x0000ffff0000ffff
      = (0x0000ffff0000ffff : Int) := by
    rw [e1]
    show Int.ofNat (Nat.ldiff 0x0000ffff0000ffff 0) = _
    rw [ldiff_self_zero]
    rfl
  show Morton.bkey_interleave (-1) = 0x5555555555555555
  unfold Morton.bkey_interleave
  rw [h1]
  decide

theorem bkey_encode_neg_one_zero :
    Morton.bkey_encode (-1) 0 = 0x5555555555555555 := by
  unfold Morton.bkey_encode
  rw [interleave_neg_one]
  decide

theorem setBkey_byIJ_neg_one :
    GSfc4qLbl.setBkey_byIJ GSfc4q.grid1 ⟨none, 0⟩ (-1) 0 = ⟨some 2, 2⟩ := by
  simp only [GSfc4qLbl.setBkey_byIJ, GSfc4q.key_encode]
  rw [if_neg (by decide)]
  have hfalse : GSfc4q.grid1.isHalf = false := rfl
  simp only [hfalse, Bool.false_eq_true, if_false]
  rw [bkey_encode_neg_one_zero]
  decide

/-- C9 counterexample: the claim says `setBkey_byIJ` is a state-preserving
no-op for EVERY coordinate outside `[0, nRefRows)`; but the source only
checks the upper bound (`i > max || j > max`), so the negative coordinate
`i = -1` passes the check, is interleaved as a two's-complement BigInt
(giving bkey `0x5555555555555555`), and overwrites the internal
SizedBigInt: from the null state the instance ends at `(val 2, bits 2)`. -/
theorem C9_negative_coordinate_counterexample :
    GSfc4qLbl.setBkey_byIJ GSfc4q.grid1 ⟨none, 0⟩ (-1) 0 ≠ ⟨none, 0⟩ := by
  rw [setBkey_byIJ_neg_one]
  decide

/-- C9 amended: `setBkey_byIJ` returns the unchanged state exactly when a
coordinate exceeds `nRefRows - 1`; coordinates below 0 are NOT filtered
and mutate the state (e.g. `i = -1` at Morton level 1 sets the internal
SizedBigInt to `(val 2, bits 2)`).  No error is raised in either case. -/
theorem C9_upper_bound_no_op :
    (∀ (g : GSfc4q.Grid) (st : SizedBigInt.Sbi) (i j : Int),
      ((g.nRefRows : Int) - 1 < i ∨ (g.nRefRows : Int) - 1 < j) →
      GSfc4qLbl.setBkey_byIJ g st i j = st) ∧
    GSfc4qLbl.setBkey_byIJ GSfc4q.grid1 ⟨none, 0⟩ (-1) 0 = ⟨some 2, 2⟩ := by
  constructor
  · intro g st i j h
    simp only [GSfc4qLbl.setBkey_byIJ]
    rw [if_pos h]
  · exact setBkey_byIJ_neg_one

theorem C9_upper_bound_no_op_witness :
    GSfc4qLbl.setBkey_byIJ GSfc4q.grid1 ⟨none, 0⟩ 5 0 = ⟨none, 0⟩ :=
  C9_upper_bound_no_op.1 GSfc4q.grid1 ⟨none, 0⟩ 5 0 (by decide)


/-! Hilbert-curve round trip (claim C1).  The loop bodies of
`_bkey_decode`/`_bkey_encode` are related to the digit-driven forms
`dLoop`/`eLoop`, the two-complement bit test `(x & s) > 0n` is
characterised by `x mod 2^(l+1)`, and the round trips follow by
induction on the level with a four-way case split on the base-4 key
digit (the quadrant). -/

namespace Hilbert

theorem xor_mod_two (a b : Nat) : (a ^^^ b) % 2 = (a % 2 + b % 2) % 2 := by
  have h := @Nat.xor_mod_two_eq_one a b
  have h2 : (a ^^^ b) % 2 < 2 := Nat.mod_lt _ (by norm_num)
  omega

theorem le_mod_two_pow_iff (l m : Nat) :
    2 ^ l ≤ m % 2 ^ (l + 1) ↔ m / 2 ^ l % 2 = 1 := by
  have h := @Nat.mod_pow_succ m 2 l
  have h1 : m % 2 ^ l < 2 ^ l := Nat.mod_lt _ (by positivity)
  have h2 : m / 2 ^ l % 2 < 2 := Nat.mod_lt _ (by norm_num)
  have hc : m / 2 ^ l % 2 = 0 ∨ m / 2 ^ l % 2 = 1 := by omega
  rcases hc with hc | hc <;> rw [hc] at h ⊢
  · rw [Nat.mul_zero, Nat.add_zero] at h
    omega
  · rw [Nat.mul_one] at h
    omega

theorem neg_sub_one_emod (a N : Int) (hN : 0 < N) :
    (-a - 1) % N = N - 1 - a % N := by
  have h1 : -a - 1 = (N - 1 - a % N) + (-(a / N) - 1) * N := by
    have h := Int.ediv_add_emod a N
    linear_combination h
  rw [h1, Int.add_mul_emod_self]
  have hr1 : 0 ≤ a % N := Int.emod_nonneg a (ne_of_gt hN)
  have hr2 : a % N < N := Int.emod_lt_of_pos a hN
  exact Int.emod_eq_of_lt (by omega) (by omega)

theorem ldiff_two_pow_eq (l m : Nat) :
    Nat.ldiff (2 ^ l) m = if m.testBit l then 0 else 2 ^ l := by
  apply Nat.eq_of_testBit_eq
  intro i
  rw [Nat.testBit_ldiff, Nat.testBit_two_pow]
  by_cases hli : l = i
  · subst hli
    cases hb : m.testBit l <;> simp [hb]
  · cases hb : m.testBit l <;> simp [hli, Nat.testBit_two_pow]

theorem cast_two_pow (l : Nat) : ((2 : Int) ^ l) = ((2 ^ l : Nat) : Int) := by
  norm_cast

theorem land_two_pow_pos_iff (l : Nat) (x : Int) :
    0 < Int.land x (2 ^ l) ↔ (2 : Int) ^ l ≤ x % 2 ^ (l + 1) := by
  have hps : (2 : Nat) ^ (l + 1) = 2 ^ l * 2 := pow_succ 2 l
  have hpsI : (2 : Int) ^ (l + 1) = 2 ^ l * 2 := pow_succ 2 l
  have hPpos : (0 : Nat) < 2 ^ l := by positivity
  cases x with
  | ofNat n =>
    have hland : Int.land (Int.ofNat n) ((2 : Int) ^ l) = ((n &&& 2 ^ l : Nat) : Int) := by
      rw [cast_two_pow]
      rfl
    have hmod : (Int.ofNat n) % (2 : Int) ^ (l + 1) = ((n % 2 ^ (l + 1) : Nat) : Int) := by
      rw [cast_two_pow (l + 1)]
      exact_mod_cast rfl
    rw [hland, hmod, Nat.and_two_pow, Nat.testBit_to_div_mod]
    have hB := le_mod_two_pow_iff l n
    by_cases hb : n / 2 ^ l % 2 = 1
    · rw [decide_eq_true hb]
      simp only [Bool.toNat_true, Nat.one_mul]
      rw [cast_two_pow l]
      constructor
      · intro _
        exact_mod_cast hB.mpr hb
      · intro _
        exact_mod_cast hPpos
    · rw [decide_eq_false hb]
      simp only [Bool.toNat_false, Nat.zero_mul, Nat.cast_zero]
      rw [cast_two_pow l]
      constructor
      · intro h
        exact absurd h (lt_irrefl 0)
      · intro h
        exact absurd (hB.mp (by exact_mod_cast h)) hb
  | negSucc m =>
    have hland : Int.land (Int.negSucc m) ((2 : Int) ^ l) = ((Nat.ldiff (2 ^ l) m : Nat) : Int) := by
      rw [cast_two_pow]
      rfl
    have hNpos : (0 : Int) < 2 ^ (l + 1) := by positivity
    have hmod : (Int.negSucc m) % (2 : Int) ^ (l + 1)
        = 2 ^ (l + 1) - 1 - ((m % 2 ^ (l + 1) : Nat) : Int) := by
      rw [Int.negSucc_eq' m, neg_sub_one_emod _ _ hNpos]
      congr 1
      rw [cast_two_pow (l + 1)]
      exact_mod_cast rfl
    rw [hland, hmod, ldiff_two_pow_eq, Nat.testBit_to_div_mod]
    have h1 : m % 2 ^ (l + 1) < 2 ^ (l + 1) := Nat.mod_lt _ (by positivity)
    have hA1 : m % 2 ^ (l + 1) < 2 ^ l * 2 := by
      rw [← hps]
      exact h1
    have hB := le_mod_two_pow_iff l m
    by_cases hb : m / 2 ^ l % 2 = 1
    · rw [decide_eq_true hb, if_pos rfl]
      have hge : 2 ^ l ≤ m % 2 ^ (l + 1) := hB.mpr hb
      simp only [Nat.cast_zero]
      constructor
      · intro h
        exact absurd h (lt_irrefl 0)
      · intro hle
        rw [hpsI, cast_two_pow l] at hle
        omega
    · rw [decide_eq_false hb, if_neg (by simp)]
      have hlt2 : m % 2 ^ (l + 1) < 2 ^ l := by
        rcases Nat.lt_or_ge (m % 2 ^ (l + 1)) (2 ^ l) with h | h
        · exact h
        · exact absurd (hB.mp h) hb
      constructor
      · intro _
        rw [hpsI, cast_two_pow l]
        omega
      · intro _
        exact_mod_cast hPpos

theorem eLoop_succ (l : Nat) (ij : Int × Int) :
    eLoop (l + 1) ij = 2 ^ l * 2 ^ l * Int.xor (3 * ibit l ij.1) (ibit l ij.2)
      + eLoop l (rot (2 ^ l) ij (ibit l ij.1) (ibit l ij.2)) := rfl

theorem decodeLoop_eq_dLoop (l : Nat) :
    ∀ (s : Int) (t : Nat) (ij : Int × Int),
      decodeLoop l s (t : Int) ij = dLoop l s t ij := by
  induction l with
  | zero => intro s t ij; rfl
  | succ l IH =>
    intro s t ij
    have e1 : ((t : Nat) : Int).tdiv 2 = ((t / 2 : Nat) : Int) := rfl
    have e2 : ∀ k : Nat, Int.land 1 ((k : Nat) : Int) = ((k % 2 : Nat) : Int) := by
      intro k
      rw [show Int.land 1 ((k : Nat) : Int) = ((1 &&& k : Nat) : Int) from rfl]
      rw [Nat.one_and_eq_mod_two]
    have e3 : Int.xor ((t : Nat) : Int) ((t / 2 % 2 : Nat) : Int)
        = ((t ^^^ t / 2 % 2 : Nat) : Int) := rfl
    have e4 : ((t : Nat) : Int).tdiv 4 = ((t / 4 : Nat) : Int) := rfl
    have step : decodeLoop (l + 1) s (t : Int) ij
        = decodeLoop l (2 * s) (((t : Nat) : Int).tdiv 4)
            ((rot s ij (Int.land 1 (((t : Nat) : Int).tdiv 2))
                (Int.land 1 (Int.xor ((t : Nat) : Int) (Int.land 1 (((t : Nat) : Int).tdiv 2))))).1
               + s * Int.land 1 (((t : Nat) : Int).tdiv 2),
             (rot s ij (Int.land 1 (((t : Nat) : Int).tdiv 2))
                (Int.land 1 (Int.xor ((t : Nat) : Int) (Int.land 1 (((t : Nat) : Int).tdiv 2))))).2
               + s * Int.land 1 (Int.xor ((t : Nat) : Int)
                   (Int.land 1 (((t : Nat) : Int).tdiv 2)))) := rfl
    rw [step, e1, e2 (t / 2), e3, e2 (t ^^^ t / 2 % 2), e4, IH (2 * s) (t / 4)]
    show dLoop l (2 * s) (t / 4) _ = dLoop (l + 1) s t ij
    show dLoop l (2 * s) (t / 4) _ = dLoop l (2 * s) (t / 4) (hstep s (t % 4) ij)
    congr 1
    have a1 : t / 2 % 2 = hdigitRx (t % 4) := by
      simp only [hdigitRx]
      omega
    have a2 : (t ^^^ t / 2 % 2) % 2 = hdigitRy (t % 4) := by
      simp only [hdigitRy]
      rw [xor_mod_two, xor_mod_two]
      omega
    simp only [hstep]
    rw [← a1, ← a2]

theorem encodeLoop_eq_eLoop (l : Nat) :
    ∀ ij : Int × Int, encodeLoop l (((2 : Int) ^ l).tdiv 2) ij = eLoop l ij := by
  induction l with
  | zero => intro ij; rfl
  | succ l IH =>
    intro ij
    have hs : (((2 : Int) ^ (l + 1)).tdiv 2) = (2 : Int) ^ l := by
      rw [pow_succ]
      exact Int.mul_tdiv_cancel _ (by norm_num)
    rw [hs]
    have hguard : (1 : Int) ≤ 2 ^ l := by
      have := pow_pos (show (0 : Int) < 2 by norm_num) l
      omega
    have hrx : (if 0 < Int.land ij.1 ((2 : Int) ^ l) then (1 : Int) else 0) = ibit l ij.1 := by
      simp only [ibit]
      exact if_congr (land_two_pow_pos_iff l ij.1) rfl rfl
    have hry : (if 0 < Int.land ij.2 ((2 : Int) ^ l) then (1 : Int) else 0) = ibit l ij.2 := by
      simp only [ibit]
      exact if_congr (land_two_pow_pos_iff l ij.2) rfl rfl
    have step : encodeLoop (l + 1) ((2 : Int) ^ l) ij
        = (if 1 ≤ (2 : Int) ^ l then
             (2 : Int) ^ l * 2 ^ l
               * Int.xor (3 * (if 0 < Int.land ij.1 ((2 : Int) ^ l) then (1 : Int) else 0))
                   (if 0 < Int.land ij.2 ((2 : Int) ^ l) then (1 : Int) else 0)
               + encodeLoop l (((2 : Int) ^ l).tdiv 2)
                   (rot ((2 : Int) ^ l) ij
                     (if 0 < Int.land ij.1 ((2 : Int) ^ l) then (1 : Int) else 0)
                     (if 0 < Int.land ij.2 ((2 : Int) ^ l) then (1 : Int) else 0))
           else 0) := rfl
    rw [step, if_pos hguard, hrx, hry, IH]
    exact (eLoop_succ l ij).symm

theorem dLoop_succ (l : Nat) :
    ∀ (s : Int) (t : Nat) (ij : Int × Int),
      dLoop (l + 1) s t ij = hstep (2 ^ l * s) (t / 4 ^ l % 4) (dLoop l s t ij) := by
  induction l with
  | zero =>
    intro s t ij
    show hstep s (t % 4) ij = hstep (2 ^ 0 * s) (t / 4 ^ 0 % 4) ij
    norm_num
  | succ l IH =>
    intro s t ij
    show dLoop (l + 1) (2 * s) (t / 4) (hstep s (t % 4) ij)
        = hstep (2 ^ (l + 1) * s) (t / 4 ^ (l + 1) % 4) (dLoop (l + 1) s t ij)
    rw [IH (2 * s) (t / 4) (hstep s (t % 4) ij)]
    have r1 : (2 : Int) ^ l * (2 * s) = 2 ^ (l + 1) * s := by ring
    have r2 : t / 4 / 4 ^ l = t / 4 ^ (l + 1) := by
      rw [Nat.div_div_eq_div_mul, show 4 * 4 ^ l = 4 ^ (l + 1) by ring]
    rw [r1, r2]
    rfl

theorem dLoop_mod (l : Nat) :
    ∀ (s : Int) (t : Nat) (ij : Int × Int),
      dLoop l s t ij = dLoop l s (t % 4 ^ l) ij := by
  induction l with
  | zero => intro s t ij; rfl
  | succ l IH =>
    intro s t ij
    show dLoop l (2 * s) (t / 4) (hstep s (t % 4) ij)
        = dLoop l (2 * s) (t % 4 ^ (l + 1) / 4) (hstep s (t % 4 ^ (l + 1) % 4) ij)
    have e1 : t % 4 ^ (l + 1) % 4 = t % 4 :=
      Nat.mod_mod_of_dvd t ⟨4 ^ l, by ring⟩
    have e2 : t % 4 ^ (l + 1) / 4 = t / 4 % 4 ^ l := by
      rw [show (4 : Nat) ^ (l + 1) = 4 * 4 ^ l by ring]
      exact Nat.mod_mul_right_div_self t 4 (4 ^ l)
    rw [e1, e2, ← IH (2 * s) (t / 4) (hstep s (t % 4) ij)]

theorem hstep_zero (s : Int) (ij : Int × Int) : hstep s 0 ij = (ij.2, ij.1) := by
  have h1 : hdigitRx 0 = 0 := by decide
  have h2 : hdigitRy 0 = 0 := by decide
  simp only [hstep, h1, h2, rot, Nat.cast_zero]
  norm_num

theorem hstep_one (s : Int) (ij : Int × Int) : hstep s 1 ij = (ij.1, ij.2 + s) := by
  have h1 : hdigitRx 1 = 0 := by decide
  have h2 : hdigitRy 1 = 1 := by decide
  simp only [hstep, h1, h2, rot, Nat.cast_zero, Nat.cast_one]
  norm_num

theorem hstep_two (s : Int) (ij : Int × Int) : hstep s 2 ij = (ij.1 + s, ij.2 + s) := by
  have h1 : hdigitRx 2 = 1 := by decide
  have h2 : hdigitRy 2 = 1 := by decide
  simp only [hstep, h1, h2, rot, Nat.cast_one]
  norm_num

theorem hstep_three (s : Int) (ij : Int × Int) :
    hstep s 3 ij = (s - 1 - ij.2 + s, s - 1 - ij.1) := by
  have h1 : hdigitRx 3 = 1 := by decide
  have h2 : hdigitRy 3 = 0 := by decide
  simp only [hstep, h1, h2, rot, Nat.cast_zero, Nat.cast_one]
  norm_num

theorem ibit_eq_zero (l : Nat) {x : Int} (h0 : 0 ≤ x) (h : x < 2 ^ l) : ibit l x = 0 := by
  have hle : (2 : Int) ^ l ≤ 2 ^ (l + 1) := by
    have := pow_pos (show (0 : Int) < 2 by norm_num) l
    rw [pow_succ]
    omega
  simp only [ibit]
  rw [Int.emod_eq_of_lt h0 (lt_of_lt_of_le h hle), if_neg (not_le.mpr h)]

theorem ibit_eq_one (l : Nat) {x : Int} (h0 : 2 ^ l ≤ x) (h : x < 2 ^ (l + 1)) :
    ibit l x = 1 := by
  have hp : (0 : Int) < 2 ^ l := pow_pos (by norm_num) l
  simp only [ibit]
  rw [Int.emod_eq_of_lt (by omega) h, if_pos h0]

theorem ibit_congr (l : Nat) {x y : Int} (h : x % 2 ^ (l + 1) = y % 2 ^ (l + 1)) :
    ibit l x = ibit l y := by
  simp only [ibit, h]

theorem emod_add_cancel (a n : Int) : (a + n) % n = a % n := by
  conv_lhs => rw [show a + n = a + 1 * n by ring]
  rw [Int.add_mul_emod_self]

theorem emod_sub_cancel (a n : Int) : (a - n) % n = a % n := by
  conv_lhs => rw [show a - n = a + (-1) * n by ring]
  rw [Int.add_mul_emod_self]

theorem rot_emod_congr (s rx ry N : Int) (p q : Int × Int)
    (h1 : p.1 % N = q.1 % N) (h2 : p.2 % N = q.2 % N) :
    (rot s p rx ry).1 % N = (rot s q rx ry).1 % N ∧
    (rot s p rx ry).2 % N = (rot s q rx ry).2 % N := by
  simp only [rot]
  split_ifs
  · constructor
    · show (s - 1 - p.2) % N = (s - 1 - q.2) % N
      rw [Int.sub_emod (s - 1) p.2 N, h2, ← Int.sub_emod]
    · show (s - 1 - p.1) % N = (s - 1 - q.1) % N
      rw [Int.sub_emod (s - 1) p.1 N, h1, ← Int.sub_emod]
  · exact ⟨h2, h1⟩
  · exact ⟨h1, h2⟩

theorem eLoop_congr (l : Nat) :
    ∀ (p q : Int × Int), p.1 % 2 ^ l = q.1 % 2 ^ l → p.2 % 2 ^ l = q.2 % 2 ^ l →
      eLoop l p = eLoop l q := by
  induction l with
  | zero => intro p q _ _; rfl
  | succ l IH =>
    intro p q h1 h2
    have hb1 : ibit l p.1 = ibit l q.1 := ibit_congr l h1
    have hb2 : ibit l p.2 = ibit l q.2 := ibit_congr l h2
    rw [eLoop_succ, eLoop_succ, hb1, hb2]
    have hdvd : (2 : Int) ^ l ∣ 2 ^ (l + 1) := ⟨2, by ring⟩
    have g1 : p.1 % 2 ^ l = q.1 % 2 ^ l := by
      rw [← Int.emod_emod_of_dvd p.1 hdvd, h1, Int.emod_emod_of_dvd q.1 hdvd]
    have g2 : p.2 % 2 ^ l = q.2 % 2 ^ l := by
      rw [← Int.emod_emod_of_dvd p.2 hdvd, h2, Int.emod_emod_of_dvd q.2 hdvd]
    have hrc := rot_emod_congr (2 ^ l) (ibit l q.1) (ibit l q.2) (2 ^ l) p q g1 g2
    congr 1
    exact IH _ _ hrc.1 hrc.2

theorem eLoop_bounds (l : Nat) :
    ∀ ij : Int × Int, 0 ≤ eLoop l ij ∧ eLoop l ij < 4 ^ l := by
  induction l with
  | zero =>
    intro ij
    refine ⟨le_refl 0, ?_⟩
    show (0 : Int) < 4 ^ 0
    norm_num
  | succ l IH =>
    intro ij
    rw [eLoop_succ]
    have h44 : (4 : Int) ^ (l + 1) = 4 ^ l * 4 := pow_succ 4 l
    have h24 : (2 : Int) ^ l * 2 ^ l = 4 ^ l := by
      rw [show (4 : Int) = 2 * 2 by norm_num, mul_pow]
    have hb1 : ibit l ij.1 = 0 ∨ ibit l ij.1 = 1 := by
      simp only [ibit]
      split_ifs <;> simp
    have hb2 : ibit l ij.2 = 0 ∨ ibit l ij.2 = 1 := by
      simp only [ibit]
      split_ifs <;> simp
    rw [h24]
    rcases hb1 with h | h <;> rcases hb2 with h' | h'
    · rw [h, h', show Int.xor (3 * (0 : Int)) 0 = 0 by decide]
      have hrec := IH (rot (2 ^ l) ij 0 0)
      omega
    · rw [h, h', show Int.xor (3 * (0 : Int)) 1 = 1 by decide]
      have hrec := IH (rot (2 ^ l) ij 0 1)
      omega
    · rw [h, h', show Int.xor (3 * (1 : Int)) 0 = 3 by decide]
      have hrec := IH (rot (2 ^ l) ij 1 0)
      omega
    · rw [h, h', show Int.xor (3 * (1 : Int)) 1 = 2 by decide]
      have hrec := IH (rot (2 ^ l) ij 1 1)
      omega

theorem dLoop_bounds (l : Nat) :
    ∀ t : Nat, 0 ≤ (dLoop l 1 t (0, 0)).1 ∧ (dLoop l 1 t (0, 0)).1 < 2 ^ l ∧
      0 ≤ (dLoop l 1 t (0, 0)).2 ∧ (dLoop l 1 t (0, 0)).2 < 2 ^ l := by
  induction l with
  | zero =>
    intro t
    dsimp only [dLoop]
    norm_num
  | succ l IH =>
    intro t
    rw [dLoop_succ l 1 t (0, 0), mul_one]
    obtain ⟨ha, hb, hc, hd⟩ := IH t
    have hps : (2 : Int) ^ (l + 1) = 2 ^ l * 2 := pow_succ 2 l
    have hdig : t / 4 ^ l % 4 = 0 ∨ t / 4 ^ l % 4 = 1 ∨ t / 4 ^ l % 4 = 2
        ∨ t / 4 ^ l % 4 = 3 := by omega
    rcases hdig with h | h | h | h
    · rw [h, hstep_zero]
      dsimp only
      rw [hps]
      omega
    · rw [h, hstep_one]
      dsimp only
      rw [hps]
      omega
    · rw [h, hstep_two]
      dsimp only
      rw [hps]
      omega
    · rw [h, hstep_three]
      dsimp only
      rw [hps]
      omega

theorem key_toNat (l : Nat) (D : Int) (DN : Nat) (hD : D = (DN : Int)) (E : Int)
    (h0 : 0 ≤ E) :
    ((2 : Int) ^ l * 2 ^ l * D + E).toNat = 4 ^ l * DN + E.toNat := by
  have hcast : ((4 ^ l : Nat) : Int) = 2 ^ l * 2 ^ l := by
    push_cast
    rw [show (4 : Int) = 2 * 2 by norm_num, mul_pow]
  have hEn : ((E.toNat : Nat) : Int) = E := Int.toNat_of_nonneg h0
  rw [hD, ← hEn, ← hcast]
  rw [show ((4 ^ l : Nat) : Int) * ((DN : Nat) : Int) + ((E.toNat : Nat) : Int)
      = ((4 ^ l * DN + E.toNat : Nat) : Int) by push_cast; ring]
  exact Int.toNat_ofNat _

theorem key_digit (l DN n : Nat) (hn : n < 4 ^ l) (hD4 : DN < 4) :
    (4 ^ l * DN + n) / 4 ^ l % 4 = DN := by
  rw [Nat.mul_add_div (by positivity), Nat.div_eq_of_lt hn, Nat.add_zero,
    Nat.mod_eq_of_lt hD4]

theorem key_mod (l DN n : Nat) (hn : n < 4 ^ l) :
    (4 ^ l * DN + n) % 4 ^ l = n := by
  rw [Nat.mul_add_mod]
  exact Nat.mod_eq_of_lt hn

theorem eLoop_dLoop (l : Nat) :
    ∀ t : Nat, t < 4 ^ l → eLoop l (dLoop l 1 t (0, 0)) = (t : Int) := by
  induction l with
  | zero =>
    intro t ht
    have ht0 : t = 0 := by omega
    subst ht0
    simp [eLoop]
  | succ l IH =>
    intro t ht
    have hS : (0 : Int) < 2 ^ l := pow_pos (by norm_num) l
    have hpsI : (2 : Int) ^ (l + 1) = 2 ^ l * 2 := pow_succ 2 l
    have h4 : (0 : Nat) < 4 ^ l := by positivity
    obtain ⟨ha, hb, hc, hd⟩ := dLoop_bounds l t
    have hIH : eLoop l (dLoop l 1 t (0, 0)) = ((t % 4 ^ l : Nat) : Int) := by
      rw [dLoop_mod l 1 t (0, 0)]
      exact IH (t % 4 ^ l) (Nat.mod_lt _ h4)
    have hdlt : t / 4 ^ l < 4 := by
      rw [Nat.div_lt_iff_lt_mul h4]
      calc t < 4 ^ (l + 1) := ht
        _ = 4 * 4 ^ l := by ring
    have hdeq : t / 4 ^ l % 4 = t / 4 ^ l := Nat.mod_eq_of_lt hdlt
    have hrec : 4 ^ l * (t / 4 ^ l) + t % 4 ^ l = t := Nat.div_add_mod t (4 ^ l)
    have hcast : ((4 ^ l : Nat) : Int) = 2 ^ l * 2 ^ l := by
      push_cast
      rw [show (4 : Int) = 2 * 2 by norm_num, mul_pow]
    rw [dLoop_succ l 1 t (0, 0), mul_one, hdeq]
    have hdig : t / 4 ^ l = 0 ∨ t / 4 ^ l = 1 ∨ t / 4 ^ l = 2 ∨ t / 4 ^ l = 3 := by
      omega
    rcases hdig with h | h | h | h
    · rw [h] at hrec
      rw [h, hstep_zero, eLoop_succ]
      dsimp only
      rw [ibit_eq_zero l hc hd, ibit_eq_zero l ha hb,
        show Int.xor (3 * (0 : Int)) 0 = 0 by decide]
      have hr : rot ((2 : Int) ^ l) ((dLoop l 1 t (0, 0)).2, (dLoop l 1 t (0, 0)).1) 0 0
          = ((dLoop l 1 t (0, 0)).1, (dLoop l 1 t (0, 0)).2) := by
        simp [rot]
      rw [hr, Prod.mk.eta, hIH, ← hcast]
      omega
    · rw [h] at hrec
      rw [h, hstep_one, eLoop_succ]
      dsimp only
      rw [ibit_eq_zero l ha hb,
        ibit_eq_one l
          (show (2 : Int) ^ l ≤ (dLoop l 1 t (0, 0)).2 + 2 ^ l by omega)
          (show (dLoop l 1 t (0, 0)).2 + 2 ^ l < 2 ^ (l + 1) by rw [hpsI]; omega),
        show Int.xor (3 * (0 : Int)) 1 = 1 by decide]
      have hr : rot ((2 : Int) ^ l) ((dLoop l 1 t (0, 0)).1, (dLoop l 1 t (0, 0)).2 + 2 ^ l) 0 1
          = ((dLoop l 1 t (0, 0)).1, (dLoop l 1 t (0, 0)).2 + 2 ^ l) := by
        simp [rot]
      rw [hr]
      have hsh : eLoop l ((dLoop l 1 t (0, 0)).1, (dLoop l 1 t (0, 0)).2 + 2 ^ l)
          = eLoop l ((dLoop l 1 t (0, 0)).1, (dLoop l 1 t (0, 0)).2) :=
        eLoop_congr l _ _ rfl (emod_add_cancel _ _)
      rw [hsh, Prod.mk.eta, hIH, ← hcast]
      omega
    · rw [h] at hrec
      rw [h, hstep_two, eLoop_succ]
      dsimp only
      rw [ibit_eq_one l
          (show (2 : Int) ^ l ≤ (dLoop l 1 t (0, 0)).1 + 2 ^ l by omega)
          (show (dLoop l 1 t (0, 0)).1 + 2 ^ l < 2 ^ (l + 1) by rw [hpsI]; omega),
        ibit_eq_one l
          (show (2 : Int) ^ l ≤ (dLoop l 1 t (0, 0)).2 + 2 ^ l by omega)
          (show (dLoop l 1 t (0, 0)).2 + 2 ^ l < 2 ^ (l + 1) by rw [hpsI]; omega),
        show Int.xor (3 * (1 : Int)) 1 = 2 by decide]
      have hr : rot ((2 : Int) ^ l)
          ((dLoop l 1 t (0, 0)).1 + 2 ^ l, (dLoop l 1 t (0, 0)).2 + 2 ^ l) 1 1
          = ((dLoop l 1 t (0, 0)).1 + 2 ^ l, (dLoop l 1 t (0, 0)).2 + 2 ^ l) := by
        simp [rot]
      rw [hr]
      have hsh : eLoop l ((dLoop l 1 t (0, 0)).1 + 2 ^ l, (dLoop l 1 t (0, 0)).2 + 2 ^ l)
          = eLoop l ((dLoop l 1 t (0, 0)).1, (dLoop l 1 t (0, 0)).2) :=
        eLoop_congr l _ _ (emod_add_cancel _ _) (emod_add_cancel _ _)
      rw [hsh, Prod.mk.eta, hIH, ← hcast]
      omega
    · rw [h] at hrec
      rw [h, hstep_three, eLoop_succ]
      dsimp only
      rw [ibit_eq_one l
          (show (2 : Int) ^ l ≤ 2 ^ l - 1 - (dLoop l 1 t (0, 0)).2 + 2 ^ l by omega)
          (show (2 : Int) ^ l - 1 - (dLoop l 1 t (0, 0)).2 + 2 ^ l < 2 ^ (l + 1) by
            rw [hpsI]; omega),
        ibit_eq_zero l
          (show (0 : Int) ≤ 2 ^ l - 1 - (dLoop l 1 t (0, 0)).1 by omega)
          (show (2 : Int) ^ l - 1 - (dLoop l 1 t (0, 0)).1 < 2 ^ l by omega),
        show Int.xor (3 * (1 : Int)) 0 = 3 by decide]
      have hr : rot ((2 : Int) ^ l)
          (2 ^ l - 1 - (dLoop l 1 t (0, 0)).2 + 2 ^ l, 2 ^ l - 1 - (dLoop l 1 t (0, 0)).1) 1 0
          = (2 ^ l - 1 - (2 ^ l - 1 - (dLoop l 1 t (0, 0)).1),
             2 ^ l - 1 - (2 ^ l - 1 - (dLoop l 1 t (0, 0)).2 + 2 ^ l)) := by
        simp [rot]
      rw [hr]
      rw [show (2 : Int) ^ l - 1 - (2 ^ l - 1 - (dLoop l 1 t (0, 0)).1)
          = (dLoop l 1 t (0, 0)).1 by ring,
        show (2 : Int) ^ l - 1 - (2 ^ l - 1 - (dLoop l 1 t (0, 0)).2 + 2 ^ l)
          = (dLoop l 1 t (0, 0)).2 - 2 ^ l by ring]
      have hsh : eLoop l ((dLoop l 1 t (0, 0)).1, (dLoop l 1 t (0, 0)).2 - 2 ^ l)
          = eLoop l ((dLoop l 1 t (0, 0)).1, (dLoop l 1 t (0, 0)).2) :=
        eLoop_congr l _ _ rfl (emod_sub_cancel _ _)
      rw [hsh, Prod.mk.eta, hIH, ← hcast]
      omega

theorem dLoop_eLoop (l : Nat) :
    ∀ i j : Int, 0 ≤ i → i < 2 ^ l → 0 ≤ j → j < 2 ^ l →
      dLoop l 1 (eLoop l (i, j)).toNat (0, 0) = (i, j) := by
  induction l with
  | zero =>
    intro i j h0i h1i h0j h1j
    rw [pow_zero] at h1i h1j
    have hi : i = 0 := by omega
    have hj : j = 0 := by omega
    subst hi
    subst hj
    rfl
  | succ l IH =>
    intro i j h0i h1i h0j h1j
    have hS : (0 : Int) < 2 ^ l := pow_pos (by norm_num) l
    have hpsI : (2 : Int) ^ (l + 1) = 2 ^ l * 2 := pow_succ 2 l
    have hml : ((4 ^ l : Nat) : Int) = (4 : Int) ^ l := by
      push_cast
      ring
    have h1i' : i < 2 ^ l * 2 := by
      rw [← hpsI]
      exact h1i
    have h1j' : j < 2 ^ l * 2 := by
      rw [← hpsI]
      exact h1j
    rw [eLoop_succ]
    dsimp only
    by_cases hi : (2 : Int) ^ l ≤ i
    · by_cases hj : (2 : Int) ^ l ≤ j
      · rw [ibit_eq_one l hi h1i, ibit_eq_one l hj h1j,
          show Int.xor (3 * (1 : Int)) 1 = 2 by decide]
        have hr : rot ((2 : Int) ^ l) (i, j) 1 1 = (i, j) := by simp [rot]
        rw [hr]
        have hsh : eLoop l (i, j) = eLoop l (i - 2 ^ l, j - 2 ^ l) :=
          eLoop_congr l _ _ (emod_sub_cancel i (2 ^ l)).symm (emod_sub_cancel j (2 ^ l)).symm
        rw [hsh]
        have hE0 : 0 ≤ eLoop l (i - 2 ^ l, j - 2 ^ l) := (eLoop_bounds l _).1
        have hE1 : eLoop l (i - 2 ^ l, j - 2 ^ l) < 4 ^ l := (eLoop_bounds l _).2
        have hn4 : (eLoop l (i - 2 ^ l, j - 2 ^ l)).toNat < 4 ^ l := by omega
        rw [key_toNat l 2 2 (by norm_num) _ hE0]
        rw [dLoop_succ l 1 _ (0, 0), mul_one]
        rw [key_digit l 2 _ hn4 (by norm_num), dLoop_mod l 1 _ (0, 0), key_mod l 2 _ hn4]
        rw [IH (i - 2 ^ l) (j - 2 ^ l) (by omega) (by omega) (by omega) (by omega)]
        rw [hstep_two]
        dsimp only
        rw [show i - (2 : Int) ^ l + 2 ^ l = i by ring,
          show j - (2 : Int) ^ l + 2 ^ l = j by ring]
      · rw [ibit_eq_one l hi h1i, ibit_eq_zero l h0j (not_le.mp hj),
          show Int.xor (3 * (1 : Int)) 0 = 3 by decide]
        have hr : rot ((2 : Int) ^ l) (i, j) 1 0 = (2 ^ l - 1 - j, 2 ^ l - 1 - i) := by
          simp [rot]
        rw [hr]
        have hsh : eLoop l (2 ^ l - 1 - j, 2 ^ l - 1 - i)
            = eLoop l (2 ^ l - 1 - j, 2 ^ l - 1 - i + 2 ^ l) :=
          eLoop_congr l _ _ rfl (emod_add_cancel (2 ^ l - 1 - i) (2 ^ l)).symm
        rw [hsh]
        have hE0 : 0 ≤ eLoop l (2 ^ l - 1 - j, 2 ^ l - 1 - i + 2 ^ l) := (eLoop_bounds l _).1
        have hE1 : eLoop l (2 ^ l - 1 - j, 2 ^ l - 1 - i + 2 ^ l) < 4 ^ l := (eLoop_bounds l _).2
        have hn4 : (eLoop l (2 ^ l - 1 - j, 2 ^ l - 1 - i + 2 ^ l)).toNat < 4 ^ l := by omega
        rw [key_toNat l 3 3 (by norm_num) _ hE0]
        rw [dLoop_succ l 1 _ (0, 0), mul_one]
        rw [key_digit l 3 _ hn4 (by norm_num), dLoop_mod l 1 _ (0, 0), key_mod l 3 _ hn4]
        rw [IH (2 ^ l - 1 - j) (2 ^ l - 1 - i + 2 ^ l) (by omega) (by omega) (by omega) (by omega)]
        rw [hstep_three]
        dsimp only
        rw [show (2 : Int) ^ l - 1 - (2 ^ l - 1 - i + 2 ^ l) + 2 ^ l = i by ring,
          show (2 : Int) ^ l - 1 - (2 ^ l - 1 - j) = j by ring]
    · by_cases hj : (2 : Int) ^ l ≤ j
      · rw [ibit_eq_zero l h0i (not_le.mp hi), ibit_eq_one l hj h1j,
          show Int.xor (3 * (0 : Int)) 1 = 1 by decide]
        have hr : rot ((2 : Int) ^ l) (i, j) 0 1 = (i, j) := by simp [rot]
        rw [hr]
        have hsh : eLoop l (i, j) = eLoop l (i, j - 2 ^ l) :=
          eLoop_congr l _ _ rfl (emod_sub_cancel j (2 ^ l)).symm
        rw [hsh]
        have hE0 : 0 ≤ eLoop l (i, j - 2 ^ l) := (eLoop_bounds l _).1
        have hE1 : eLoop l (i, j - 2 ^ l) < 4 ^ l := (eLoop_bounds l _).2
        have hn4 : (eLoop l (i, j - 2 ^ l)).toNat < 4 ^ l := by omega
        rw [key_toNat l 1 1 (by norm_num) _ hE0]
        rw [dLoop_succ l 1 _ (0, 0), mul_one]
        rw [key_digit l 1 _ hn4 (by norm_num), dLoop_mod l 1 _ (0, 0), key_mod l 1 _ hn4]
        rw [IH i (j - 2 ^ l) h0i (by omega) (by omega) (by omega)]
        rw [hstep_one]
        dsimp only
        rw [show j - (2 : Int) ^ l + 2 ^ l = j by ring]
      · rw [ibit_eq_zero l h0i (not_le.mp hi), ibit_eq_zero l h0j (not_le.mp hj),
          show Int.xor (3 * (0 : Int)) 0 = 0 by decide]
        have hr : rot ((2 : Int) ^ l) (i, j) 0 0 = (j, i) := by simp [rot]
        rw [hr]
        have hE0 : 0 ≤ eLoop l (j, i) := (eLoop_bounds l _).1
        have hE1 : eLoop l (j, i) < 4 ^ l := (eLoop_bounds l _).2
        have hn4 : (eLoop l (j, i)).toNat < 4 ^ l := by omega
        rw [key_toNat l 0 0 (by norm_num) _ hE0]
        rw [dLoop_succ l 1 _ (0, 0), mul_one]
        rw [key_digit l 0 _ hn4 (by norm_num), dLoop_mod l 1 _ (0, 0), key_mod l 0 _ hn4]
        rw [IH j i h0j (by omega) h0i (by omega)]
        rw [hstep_zero]

theorem hilbert_enc_of_dec (blevel : Nat) (key : Int) (h0 : 0 ≤ key)
    (h4 : key < 4 ^ blevel) :
    bkey_encode blevel (bkey_decode blevel key).1 (bkey_decode blevel key).2 = key := by
  obtain ⟨t, rfl⟩ : ∃ t : Nat, key = (t : Int) :=
    ⟨key.toNat, (Int.toNat_of_nonneg h0).symm⟩
  have hml : ((4 ^ blevel : Nat) : Int) = (4 : Int) ^ blevel := by
    push_cast
    ring
  have ht : t < 4 ^ blevel := by omega
  simp only [bkey_decode, bkey_encode]
  rw [decodeLoop_eq_dLoop blevel 1 t (0, 0), encodeLoop_eq_eLoop blevel, Prod.mk.eta]
  exact eLoop_dLoop blevel t ht

theorem hilbert_dec_of_enc (blevel : Nat) (i j : Int) (h0i : 0 ≤ i) (h1i : i < 2 ^ blevel)
    (h0j : 0 ≤ j) (h1j : j < 2 ^ blevel) :
    bkey_decode blevel (bkey_encode blevel i j) = (i, j) := by
  simp only [bkey_decode, bkey_encode]
  rw [encodeLoop_eq_eLoop blevel (i, j)]
  have hE0 : 0 ≤ eLoop blevel (i, j) := (eLoop_bounds blevel _).1
  have hEn : (((eLoop blevel (i, j)).toNat : Nat) : Int) = eLoop blevel (i, j) :=
    Int.toNat_of_nonneg hE0
  rw [← hEn, decodeLoop_eq_dLoop blevel 1 _ (0, 0)]
  exact dLoop_eLoop blevel i j h0i h1i h0j h1j

end Hilbert

/-- C1: for the Hilbert strategy at any integer `blevel` with
`nRefRows = 2^blevel`, `_bkey_encode` and `_bkey_decode` are mutually
inverse over the blind grid: for every `bkey` with `0 <= bkey < 4^blevel`,
encoding the coordinate pair returned by `_bkey_decode(bkey)` returns
`bkey`, and for every coordinate pair `(i, j)` with
`0 <= i, j < nRefRows`, `_bkey_decode(_bkey_encode(i, j)) = (i, j)`. -/
theorem C1_hilbert_encode_decode_inverse (blevel : Nat) :
    (∀ key : Int, 0 ≤ key → key < 4 ^ blevel →
      Hilbert.bkey_encode blevel (Hilbert.bkey_decode blevel key).1
        (Hilbert.bkey_decode blevel key).2 = key) ∧
    (∀ i j : Int, 0 ≤ i → i < 2 ^ blevel → 0 ≤ j → j < 2 ^ blevel →
      Hilbert.bkey_decode blevel (Hilbert.bkey_encode blevel i j) = (i, j)) :=
  ⟨fun key h0 h4 => Hilbert.hilbert_enc_of_dec blevel key h0 h4,
   fun i j h0i h1i h0j h1j => Hilbert.hilbert_dec_of_enc blevel i j h0i h1i h0j h1j⟩

theorem C1_hilbert_encode_decode_inverse_witness :
    ((0 : Int) ≤ 13 ∧ (13 : Int) < 4 ^ 2 ∧
      Hilbert.bkey_encode 2 (Hilbert.bkey_decode 2 13).1 (Hilbert.bkey_decode 2 13).2 = 13) ∧
    ((0 : Int) ≤ 2 ∧ (2 : Int) < 2 ^ 2 ∧ (0 : Int) ≤ 3 ∧ (3 : Int) < 2 ^ 2 ∧
      Hilbert.bkey_decode 2 (Hilbert.bkey_encode 2 2 3) = (2, 3)) :=
  ⟨⟨by decide, by decide,
     (C1_hilbert_encode_decode_inverse 2).1 13 (by decide) (by decide)⟩,
   ⟨by decide, by decide, by decide, by decide,
     (C1_hilbert_encode_decode_inverse 2).2 2 3 (by decide) (by decide) (by decide)
       (by decide)⟩⟩

end Sfc4q
